import Mathlib

/-!
Verification of the ClusterMind clustering engine.

This file shallowly embeds the clustering engine of the repository
(`src/unnamed/part_002` — K-Means runner, metrics, elbow analyzer —
and `src/src/utils/clustering.ts` — encoders and normalizers) and
settles the frozen claims about it.

Modelling conventions:
* JavaScript numbers are modelled as real numbers `ℝ` (exact arithmetic,
  no NaN/Infinity; the source's NaN/isFinite guards become identities and
  are noted where dropped).
* Cluster indices are modelled as `ℕ`; the source's `c >= 0` guards are
  therefore vacuous and only the `c < k` guards are kept.
* The external `ml-kmeans` package (the only import of the clustering
  module that is not part of the repository) is a parameter `lib` of the
  functions that call it; `some r` models a normal return and `none`
  models a thrown exception or a structurally null result.
* `Math.random()` is modelled as an oracle stream `rand : ℕ → ℝ` read at
  an explicitly threaded position, so that dependence on the ambient
  random state is visible in the types.
* Thrown exceptions are modelled with `Option`: `none` is a throw.
-/

namespace ClusterMind


/-! ## Euclidean distance and metrics (src/unnamed/part_002) -/

/-- `calculateEuclideanDistance` (part_002 lines 17-36): 0 on length
mismatch, otherwise the Euclidean distance.  The `Array.isArray` and
NaN/finiteness guards of the source are identities in this model. -/
noncomputable def calculateEuclideanDistance (p q : List ℝ) : ℝ :=
  if p.length ≠ q.length then 0
  else Real.sqrt (((p.zip q).map (fun ab => (ab.1 - ab.2) ^ 2)).sum)

/-- `calculateWCSS` (part_002 lines 189-221): sum of squared distances of
each point to its assigned centroid, skipping points whose cluster index
is out of range (or beyond the assignment array). -/
noncomputable def calculateWCSS (data : List (List ℝ)) (clusters : List ℕ)
    (centroids : List (List ℝ)) : ℝ :=
  ((List.range data.length).map (fun i =>
    match clusters[i]? with
    | some c =>
        if c < centroids.length then
          calculateEuclideanDistance (data.getD i []) (centroids.getD c []) ^ 2
        else 0
    | none => 0)).sum

/-- Within-cluster scatter `S_i` of DBI step 1 (part_002 lines 62-110):
mean distance of cluster `i`'s points to centroid `i`, `0` for an empty
cluster.  The index list collects positions below both array lengths
whose assignment is `i`, exactly as the two source-level filters do. -/
noncomputable def dbiScatter (data : List (List ℝ)) (clusters : List ℕ)
    (centroids : List (List ℝ)) (i : ℕ) : ℝ :=
  let valid := (List.range clusters.length).filter
    (fun idx => decide (clusters.getD idx 0 = i ∧ idx < data.length))
  if valid = [] then 0
  else (valid.map (fun idx =>
    calculateEuclideanDistance (data.getD idx []) (centroids.getD i []))).sum
      / valid.length

/-- Between-centroid distance `M_ij` of DBI step 2 (part_002 lines 112-127). -/
noncomputable def dbiM (centroids : List (List ℝ)) (i j : ℕ) : ℝ :=
  calculateEuclideanDistance (centroids.getD i []) (centroids.getD j [])

/-- Inner loop of DBI step 3 (part_002 lines 134-158): running maximum of
the ratios `(S_i + S_j) / M_ij` over `j ≠ i` with `M_ij > 0.0001`,
together with the `foundValidRatio` flag. -/
noncomputable def dbiMaxRatioOf (data : List (List ℝ)) (clusters : List ℕ)
    (centroids : List (List ℝ)) (k i : ℕ) : ℝ × Bool :=
  (List.range k).foldl
    (fun st j =>
      if j ≠ i ∧ 0.0001 < dbiM centroids i j then
        (max st.1 ((dbiScatter data clusters centroids i
            + dbiScatter data clusters centroids j) / dbiM centroids i j), true)
      else st)
    (0, false)

/-- `calculateDaviesBouldinIndex` (part_002 lines 42-184).  Returns 0 for
`k ≤ 1` and for empty data; otherwise averages the per-cluster maximal
ratios over the clusters that found a valid ratio, and substitutes the
sentinel `0.001` when the computed value is exactly 0. -/
noncomputable def calculateDaviesBouldinIndex (data : List (List ℝ))
    (clusters : List ℕ) (centroids : List (List ℝ)) : ℝ :=
  let k := centroids.length
  if k ≤ 1 then 0
  else if data = [] then 0
  else
    let acc := (List.range k).foldl
      (fun st i =>
        let mr := dbiMaxRatioOf data clusters centroids k i
        if mr.2 then (st.1 + mr.1, st.2 + 1) else st)
      ((0 : ℝ), (0 : ℕ))
    let finalDBI := if 0 < acc.2 then acc.1 / (acc.2 : ℝ) else 0
    if finalDBI = 0 ∧ 1 < k then 0.001 else finalDBI

/-! ## Specification-side formulations of the DBI (claim C3) -/

/-- The comparison partners of cluster `i` that survive the
`M_ij > 0.0001` coincident-centroid filter, among `k` clusters. -/
noncomputable def dbiPairs (centroids : List (List ℝ)) (k i : ℕ) : Finset ℕ :=
  (Finset.range k).filter (fun j => j ≠ i ∧ 0.0001 < dbiM centroids i j)

/-- The similarity quotient `(S_i + S_j) / M_ij`. -/
noncomputable def dbiQuot (data : List (List ℝ)) (clusters : List ℕ)
    (centroids : List (List ℝ)) (i j : ℕ) : ℝ :=
  (dbiScatter data clusters centroids i + dbiScatter data clusters centroids j)
    / dbiM centroids i j

/-- Per-cluster DBI contribution: the maximum quotient over the valid
pairs of cluster `i`, and `0` when no pair is valid. -/
noncomputable def dbiContribution (data : List (List ℝ)) (clusters : List ℕ)
    (centroids : List (List ℝ)) (k i : ℕ) : ℝ :=
  if h : (dbiPairs centroids k i).Nonempty then
    (dbiPairs centroids k i).sup' h (dbiQuot data clusters centroids i)
  else 0

/-- The DBI exactly as claim C3 words it: `0` for `k ≤ 1`, otherwise
`(1/k)` times the sum of the per-cluster contributions (a cluster with no
valid pair contributing `0`). -/
noncomputable def dbiClaimed (data : List (List ℝ)) (clusters : List ℕ)
    (centroids : List (List ℝ)) : ℝ :=
  let k := centroids.length
  if k ≤ 1 then 0
  else (1 / (k : ℝ)) *
    Finset.sum (Finset.range k) (dbiContribution data clusters centroids k)

/-- The corrected description of the source's DBI: the sum of
contributions is divided by the number of clusters that have at least one
valid pair (not by `k`), empty data yields `0`, and a computed value of
exactly `0` is replaced by the sentinel `0.001`. -/
noncomputable def dbiAmended (data : List (List ℝ)) (clusters : List ℕ)
    (centroids : List (List ℝ)) : ℝ :=
  let k := centroids.length
  if k ≤ 1 then 0
  else if data = [] then 0
  else
    let V := (Finset.range k).filter (fun i => (dbiPairs centroids k i).Nonempty)
    let raw := if V.card = 0 then 0
      else Finset.sum V (dbiContribution data clusters centroids k) / (V.card : ℝ)
    if raw = 0 then 0.001 else raw

/-! ## K-Means runner (src/unnamed/part_002) -/

/-- Raw result of a call into the external `ml-kmeans` package:
cluster assignments and centroids. -/
structure RawKMeans where
  clusters : List ℕ
  centroids : List (List ℝ)

/-- Model of the external `ml-kmeans` entry point: it receives features,
`k`, the seed and the iteration cap; `none` models a throw or a result
failing the `!result || !result.clusters || !result.centroids` check. -/
def KMeansLib : Type :=
  List (List ℝ) → ℕ → ℕ → ℕ → Option RawKMeans

/-- Modelled from the spec: the external `ml-kmeans` package (not part of
this repository) assigns "each point to the centroid minimizing squared
Euclidean distance" (spec 4.5), so every returned cluster index is below
`k`. -/
def LibInRange (lib : KMeansLib) : Prop :=
  ∀ f k s m r, lib f k s m = some r → ∀ c ∈ r.clusters, c < k

/-- The `clusterCounts` pattern (part_002 lines 380-385, 331-336 and
661-666): an array of `k` zeros, incremented at every in-range
assignment. -/
def clusterCounts (clusters : List ℕ) (k : ℕ) : List ℕ :=
  clusters.foldl
    (fun acc c => if c < k then acc.set c (acc.getD c 0 + 1) else acc)
    (List.replicate k 0)

/-- Loop body of `runKMeansWithRetry` (part_002 lines 358-409): call the
library with the per-attempt seed `42 + attempt*17` and iteration cap
`300 + attempt*50`; skip the attempt when the call throws or any cluster
is empty; otherwise keep the result if its WCSS beats the best so far
(or nothing was kept yet). -/
noncomputable def retryStep (lib : KMeansLib) (features : List (List ℝ)) (k : ℕ)
    (best : Option (ℝ × RawKMeans)) (attempt : ℕ) : Option (ℝ × RawKMeans) :=
  match lib features k (42 + attempt * 17) (300 + attempt * 50) with
  | none => best
  | some result =>
      if 0 < ((clusterCounts result.clusters k).filter
          (fun c => decide (c = 0))).length then best
      else
        let wcss := calculateWCSS features result.clusters result.centroids
        match best with
        | none => some (wcss, result)
        | some b => if wcss < b.1 then some (wcss, result) else some b

/-- `runKMeansWithRetry` (part_002 lines 351-417): fold `retryStep` over
the attempts `0, …, maxAttempts-1`; `none` models the final
`throw new Error('All K-Means attempts failed')`. -/
noncomputable def runKMeansWithRetry (lib : KMeansLib) (features : List (List ℝ))
    (k : ℕ) (maxAttempts : ℕ) : Option RawKMeans :=
  ((List.range maxAttempts).foldl (retryStep lib features k) none).map Prod.snd

/-- Attempt `a` is accepted with raw result `r`: the library call of
attempt `a` returns `r` and no cluster below `k` is left empty. -/
def acceptedAttempt (lib : KMeansLib) (features : List (List ℝ)) (k a : ℕ)
    (r : RawKMeans) : Prop :=
  lib features k (42 + a * 17) (300 + a * 50) = some r ∧ ∀ j < k, j ∈ r.clusters

/-- Invariant of the retry fold: the running best is `none` exactly while
no attempt has been accepted, and otherwise stores the WCSS and raw
result of an accepted attempt whose WCSS is minimal so far. -/
def RetryInv (lib : KMeansLib) (features : List (List ℝ)) (k : ℕ)
    (seen : List ℕ) (st : Option (ℝ × RawKMeans)) : Prop :=
  (st = none ↔ ∀ a ∈ seen, ∀ r, ¬ acceptedAttempt lib features k a r)
  ∧ ∀ w r, st = some (w, r) →
      w = calculateWCSS features r.clusters r.centroids
      ∧ (∃ a ∈ seen, acceptedAttempt lib features k a r)
      ∧ ∀ a ∈ seen, ∀ r2, acceptedAttempt lib features k a r2 →
          w ≤ calculateWCSS features r2.clusters r2.centroids

/-! ## Dataset values and rows (src/src/utils/csv.ts `DataPoint`) -/

/-- A JavaScript value stored in a dataset cell: a number, a string, or
`null`. -/
inductive Value where
  | vnum (x : ℝ)
  | vstr (s : String)
  | vnull

/-- A dataset row (`DataPoint`): a JS object from column names to values;
`none` models an absent field (`undefined`). -/
def Row : Type := String → Option Value

/-- Write a field of a row (`row[key] = v`). -/
def updRow (r : Row) (key : String) (v : Value) : Row :=
  fun c => if c = key then some v else r c

/-- Delete a field of a row (`delete row[key]`). -/
def delRow (r : Row) (key : String) : Row :=
  fun c => if c = key then none else r c

/-- JS numeric coercion as the engine uses it: `Number(x)` with every
NaN/non-finite outcome collapsed to 0 (both the `Number(x) || 0` idiom and
the explicit `isNaN`/`isFinite` guards produce this).  String-to-number
parsing is the model parameter `parseNum` (`none` = NaN). -/
def jsNum (parseNum : String → Option ℝ) : Option Value → ℝ
  | some (Value.vnum x) => x
  | some (Value.vstr s) => (parseNum s).getD 0
  | some Value.vnull => 0
  | none => 0

/-- `extractFeatures` (part_002 lines 226-273): one vector per row, one
coerced numeric value per selected column.  The source's trailing
`values.length === numericalColumns.length` check (always true) is kept. -/
def extractFeatures (parseNum : String → Option ℝ) (data : List Row)
    (numericalColumns : List String) : List (List ℝ) :=
  data.foldl
    (fun features row =>
      let values := numericalColumns.map (fun column => jsNum parseNum (row column))
      if values.length = numericalColumns.length then features ++ [values]
      else features)
    []

/-- `validateClusteringResult` (part_002 lines 278-346): rebuild the
assignment array round-robin when its length is wrong; rebuild the
centroids as per-cluster means when their count is wrong, falling back to
a random feature vector for a cluster with no points (this is the only
`Math.random()` consumer, read from `rand` at position `ctr`).  The final
per-component `Number(...)`/finiteness coercion of the source is the
identity in this real-number model. -/
noncomputable def centroidRebuildStep (rand : ℕ → ℝ) (clusters : List ℕ)
    (featureDimensions : ℕ) (features : List (List ℝ))
    (st : List (List ℝ) × ℕ) (i : ℕ) : List (List ℝ) × ℕ :=
  let clusterPoints := (features.enum.filter
    (fun p => decide (clusters[p.1]? = some i))).map Prod.snd
  if 0 < clusterPoints.length then
    (st.1 ++ [(List.range featureDimensions).map (fun dim =>
        (clusterPoints.map (fun p => p.getD dim 0)).sum
          / clusterPoints.length)],
     st.2)
  else
    let randomPoint :=
      match features[Int.toNat ⌊rand st.2 * (features.length : ℝ)⌋]? with
      | some p => p
      | none => List.replicate featureDimensions 0
    (st.1 ++ [randomPoint], st.2 + 1)

/-- The centroid-rebuild loop of the repair pass (part_002 lines
293-312). -/
noncomputable def rebuildCentroids (rand : ℕ → ℝ) (clusters : List ℕ)
    (featureDimensions : ℕ) (features : List (List ℝ)) (k ctr : ℕ) :
    List (List ℝ) × ℕ :=
  (List.range k).foldl
    (centroidRebuildStep rand clusters featureDimensions features) ([], ctr)

noncomputable def validateClusteringResult (rand : ℕ → ℝ) (ctr : ℕ)
    (result : RawKMeans) (k dataLength : ℕ) (features : List (List ℝ)) :
    RawKMeans × ℕ :=
  let clusters := if result.clusters.length ≠ dataLength
    then (List.range dataLength).map (fun i => i % k)
    else result.clusters
  let featureDimensions :=
    if (features.headD []).length = 0 then 2 else (features.headD []).length
  let cp := if result.centroids.length ≠ k then
      rebuildCentroids rand clusters featureDimensions features k ctr
    else (result.centroids, ctr)
  (RawKMeans.mk clusters cp.1, cp.2)

/-- The clustering result released to callers (part_002 lines 4-12,
688-695). -/
structure ClusteringResult where
  clusters : List ℕ
  centroids : List (List ℝ)
  clusterSizes : List ℕ
  data : List Row
  daviesBouldinIndex : ℝ
  wcss : ℝ

/-- `performKMeansClustering` (part_002 lines 623-700): validation
guards, feature extraction, the retry loop, the repair pass, metrics, and
the per-row `cluster` field.  `none` models every throw. -/
noncomputable def performKMeansClustering (lib : KMeansLib) (rand : ℕ → ℝ)
    (ctr : ℕ) (parseNum : String → Option ℝ) (data : List Row)
    (numericalColumns : List String) (k : ℕ) : Option ClusteringResult :=
  if data.length = 0 then none
  else if numericalColumns.length = 0 then none
  else if k < 1 ∨ data.length < k then none
  else
    let features := extractFeatures parseNum data numericalColumns
    if features.length = 0 then none
    else if features.length < k then none
    else
      match runKMeansWithRetry lib features k 10 with
      | none => none
      | some raw =>
          let v := validateClusteringResult rand ctr raw k features.length features
          let result := v.1
          let clusterSizes := clusterCounts result.clusters k
          let daviesBouldinIndex :=
            calculateDaviesBouldinIndex features result.clusters result.centroids
          let wcss := calculateWCSS features result.clusters result.centroids
          let clusteredData := data.enum.map (fun p =>
            updRow p.2 "cluster" (Value.vnum
              (if p.1 < result.clusters.length
                then (result.clusters.getD p.1 0 : ℝ) else 0)))
          some (ClusteringResult.mk result.clusters result.centroids
            clusterSizes clusteredData daviesBouldinIndex wcss)

/-! ## Elbow analyzer (src/unnamed/part_002, lines 422-511) -/

/-- Ascending insertion used to model `[...kValues].sort((a,b) => a-b)`:
on distinct-or-equal numbers any comparison sort produces the same
ascending list, so an insertion sort is a faithful model. -/
def insertAsc (a : ℕ) : List ℕ → List ℕ
  | [] => [a]
  | b :: t => if a ≤ b then a :: b :: t else b :: insertAsc a t

/-- Ascending sort of the requested k values. -/
def sortAsc : List ℕ → List ℕ
  | [] => []
  | a :: t => insertAsc a (sortAsc t)

/-- `JS (prevDBI || 1)`: 1 for undefined and for 0. -/
noncomputable def jsOrOne : Option ℝ → ℝ
  | some d => if d = 0 then 1 else d
  | none => 1

/-- The first-fallback estimate base (part_002 lines 492-494):
`Σ_points Σ_components v²`. -/
noncomputable def totalVarianceOf (features : List (List ℝ)) : ℝ :=
  features.foldl (fun s point => s + point.foldl (fun ps v => ps + v * v) 0) 0

/-- One iteration of the per-k loop of
`calculateElbowMethodFromExperiments` (part_002 lines 456-503).  The
state is `(wcssValues, dbiValues, randPosition)`.  The `try` branch runs
the retry loop, the repair pass and both metrics; the `catch` branch
(library returned `none`) appends the documented fallback: previous WCSS
shrunk by `0.6 + Math.random()*0.3` and previous DBI rescaled by
`0.7 + Math.random()*0.5` (floored at 0.1) when a positive previous WCSS
exists, else the total-variance estimate and `0.5 + Math.random()*1.5`. -/
noncomputable def elbowStep (lib : KMeansLib) (rand : ℕ → ℝ)
    (features : List (List ℝ)) (st : List ℝ × List ℝ × ℕ) (k : ℕ) :
    List ℝ × List ℝ × ℕ :=
  match runKMeansWithRetry lib features k 10 with
  | some raw =>
      let v := validateClusteringResult rand st.2.2 raw k features.length features
      let wcss := calculateWCSS features v.1.clusters v.1.centroids
      let dbi := calculateDaviesBouldinIndex features v.1.clusters v.1.centroids
      (st.1 ++ [wcss], st.2.1 ++ [dbi], v.2)
  | none =>
      match st.1.getLast? with
      | some pw =>
          if 0 < pw then
            (st.1 ++ [pw * (0.6 + rand st.2.2 * 0.3)],
             st.2.1 ++ [max 0.1 (jsOrOne st.2.1.getLast? * (0.7 + rand (st.2.2 + 1) * 0.5))],
             st.2.2 + 2)
          else
            (st.1 ++ [totalVarianceOf features / (k : ℝ)],
             st.2.1 ++ [0.5 + rand st.2.2 * 1.5],
             st.2.2 + 1)
      | none =>
          (st.1 ++ [totalVarianceOf features / (k : ℝ)],
           st.2.1 ++ [0.5 + rand st.2.2 * 1.5],
           st.2.2 + 1)

/-- `calculateElbowMethodFromExperiments` (part_002 lines 422-511):
input guards, feature extraction, ascending sort of the requested k
values (no deduplication), then the per-k loop.  `none` models the
synchronous throws of the guards. -/
noncomputable def calculateElbowMethodFromExperiments (lib : KMeansLib)
    (rand : ℕ → ℝ) (ctr : ℕ) (parseNum : String → Option ℝ) (data : List Row)
    (numericalColumns : List String) (kValues : List ℕ) :
    Option (List ℝ × List ℝ) :=
  if data.length = 0 then none
  else if numericalColumns.length = 0 then none
  else if kValues.length = 0 then none
  else
    let features := extractFeatures parseNum data numericalColumns
    if features.length = 0 then none
    else
      let final := (sortAsc kValues).foldl (elbowStep lib rand features) ([], [], ctr)
      some (final.1, final.2.1)

/-- What the per-k `catch` fallback guarantees about the appended pair
`(wv, dv)` given the previous entries: claim C5's documented policy. -/
def FallbackSpec (f : List (List ℝ)) (k0 : ℕ) (prevW prevD : Option ℝ)
    (wv dv : ℝ) : Prop :=
  (∀ pw, prevW = some pw → 0 < pw →
    ∃ r1 r2, 0 ≤ r1 ∧ r1 < 1 ∧ 0 ≤ r2 ∧ r2 < 1
      ∧ wv = pw * (0.6 + r1 * 0.3)
      ∧ dv = max 0.1 (jsOrOne prevD * (0.7 + r2 * 0.5)))
  ∧ ((prevW = none ∨ ∃ pw, prevW = some pw ∧ ¬ 0 < pw) →
    wv = totalVarianceOf f / (k0 : ℝ)
      ∧ ∃ r, 0 ≤ r ∧ r < 1 ∧ dv = 0.5 + r * 1.5)

/-! ## Concrete fixtures used by witnesses and counterexamples -/

/-- A library stand-in that always throws. -/
def libNone : KMeansLib := fun _ _ _ _ => none

/-- A library stand-in that assigns points round-robin (indices in
`[0, k)` as `ml-kmeans` guarantees) with unit-dimension centroids. -/
noncomputable def libRoundRobin : KMeansLib := fun f k _ _ =>
  if k = 0 then none
  else some (RawKMeans.mk ((List.range f.length).map (fun i => i % k))
    (List.replicate k [(0 : ℝ)]))

/-- The all-zero random oracle. -/
noncomputable def rand0 : ℕ → ℝ := fun _ => 0

/-- The constant one-half random oracle. -/
noncomputable def randHalf : ℕ → ℝ := fun _ => 1 / 2

/-- A parser stand-in: every string is NaN. -/
def parse0 : String → Option ℝ := fun _ => none

/-- A one-column row holding the number 0. -/
noncomputable def witRow : Row := fun c => if c = "x" then some (Value.vnum 0) else none

/-- A one-row dataset. -/
noncomputable def witData : List Row := [witRow]

/-- The concrete structurally-valid result that the witness run below
produces. -/
noncomputable def witRes : ClusteringResult :=
  ClusteringResult.mk [0] [[(0 : ℝ)]] (clusterCounts [0] 1)
    [updRow witRow "cluster" (Value.vnum ((0 : ℕ) : ℝ))]
    (calculateDaviesBouldinIndex (extractFeatures parse0 witData ["x"]) [0] [[(0 : ℝ)]])
    (calculateWCSS (extractFeatures parse0 witData ["x"]) [0] [[(0 : ℝ)]])

/-! ## Categorical encoders and normalizers (src/src/utils/clustering.ts) -/

/-- The row with no fields, used as a `getD` default. -/
def emptyRow : Row := fun _ => none

/-- `String(row[column] || '')`: the empty string for `undefined`,
`null`, `''` and the number 0 (all falsy); formatting of other numbers is
the model parameter `numStr`. -/
noncomputable def keyStr (numStr : ℝ → String) : Option Value → String
  | none => ""
  | some Value.vnull => ""
  | some (Value.vstr s) => s
  | some (Value.vnum x) => if x = 0 then "" else numStr x

/-- The stringified values of one column over the whole dataset. -/
noncomputable def colKeys (numStr : ℝ → String) (data : List Row)
    (column : String) : List String :=
  data.map (fun row => keyStr numStr (row column))

/-- Ascending insertion on strings. -/
def insertStr (a : String) : List String → List String
  | [] => [a]
  | b :: t => if a ≤ b then a :: b :: t else b :: insertStr a t

/-- Lexicographic sort modelling `Array.sort()`: on a duplicate-free list
every comparison sort produces the same ascending arrangement. -/
def sortStr : List String → List String
  | [] => []
  | a :: t => insertStr a (sortStr t)

/-- `[...new Set(values)].sort()`: deduplication followed by the
lexicographic sort. -/
noncomputable def uniqueSorted (numStr : ℝ → String) (data : List Row)
    (column : String) : List String :=
  sortStr (colKeys numStr data column).dedup

/-- `encodingMaps[column][v] || 0`: association-list lookup with default
0 (the `|| 0` also sends a stored 0 to 0, which coincides). -/
def lookupOr0 (m : List (String × ℕ)) (s : String) : ℕ :=
  match m.find? (fun e => decide (e.1 = s)) with
  | some e => e.2
  | none => 0

/-- `labelEncoding` (clustering.ts lines 2433-2458): per column, map the
sorted distinct stringified values (collected from the original `data`
argument) to their ordinal index, and rewrite the column in place on the
row copies.  The `{...row}` copies are value-identities here; the heap
embedding below models the allocation for the frame claim.
The per-column value-to-index map: -/
noncomputable def labelColumnMap (numStr : ℝ → String) (data : List Row)
    (column : String) : List (String × ℕ) :=
  (uniqueSorted numStr data column).enum.map (fun p => (p.2, p.1))

/-- Per-row effect of one label-encoding column pass. -/
noncomputable def labelApply (numStr : ℝ → String) (data : List Row)
    (column : String) (row : Row) : Row :=
  updRow row column (Value.vnum
    ((lookupOr0 (labelColumnMap numStr data column) (keyStr numStr (row column)) : ℕ) : ℝ))

noncomputable def labelStep (numStr : ℝ → String) (data : List Row)
    (st : List Row × (String → Option (List (String × ℕ)))) (column : String) :
    List Row × (String → Option (List (String × ℕ))) :=
  (st.1.map (labelApply numStr data column),
   fun c => if c = column then some (labelColumnMap numStr data column) else st.2 c)

noncomputable def labelEncoding (numStr : ℝ → String) (data : List Row)
    (categoricalColumns : List String) :
    List Row × (String → Option (List (String × ℕ))) :=
  categoricalColumns.foldl (labelStep numStr data)
    (data.map (fun row => row), fun _ => none)

/-- `value.replace(/[^a-zA-Z0-9]/g, '_')`. -/
def sanitizeKey (v : String) : String :=
  v.map (fun ch => if ch.isAlphanum then ch else '_')

/-- The generated indicator column name `` `${column}_${sanitized}` ``. -/
def oneHotName (column v : String) : String :=
  column ++ "_" ++ sanitizeKey v

/-- The indicator names generated for one column. -/
noncomputable def genNames (numStr : ℝ → String) (data : List Row)
    (column : String) : List String :=
  (uniqueSorted numStr data column).map (oneHotName column)

/-- `oneHotEncoding` (clustering.ts lines 2372-2428): per column, create
one indicator column per distinct value (initialised to 0 value by
value), set the matching indicator to 1 per row, and delete the original
column.  The per-column value-to-indicator-name pairs: -/
noncomputable def oneHotPairs (numStr : ℝ → String) (data : List Row)
    (column : String) : List (String × String) :=
  (uniqueSorted numStr data column).map (fun v => (v, oneHotName column v))

/-- Per-row effect of the zero-initialisation loops of one column. -/
noncomputable def ohInitApply (numStr : ℝ → String) (data : List Row)
    (column : String) (row : Row) : Row :=
  (uniqueSorted numStr data column).foldl
    (fun r v => updRow r (oneHotName column v) (Value.vnum 0)) row

/-- Per-row effect of the set-1-and-delete loop of one column. -/
noncomputable def ohSetApply (numStr : ℝ → String) (data : List Row)
    (column : String) (row : Row) : Row :=
  let originalValue := keyStr numStr (row column)
  let r2 := match (oneHotPairs numStr data column).find?
      (fun e => decide (e.1 = originalValue)) with
    | some e => updRow row e.2 (Value.vnum 1)
    | none => row
  delRow r2 column

noncomputable def ohStep (numStr : ℝ → String) (data : List Row)
    (st : List Row × (String → Option (List (String × String))) × List String)
    (column : String) :
    List Row × (String → Option (List (String × String))) × List String :=
  ((st.1.map (ohInitApply numStr data column)).map (ohSetApply numStr data column),
   (fun c => if c = column then some (oneHotPairs numStr data column) else st.2.1 c),
   st.2.2 ++ (uniqueSorted numStr data column).map (oneHotName column))

noncomputable def oneHotEncoding (numStr : ℝ → String) (data : List Row)
    (categoricalColumns : List String) :
    List Row × (String → Option (List (String × String))) × List String :=
  categoricalColumns.foldl (ohStep numStr data)
    (data.map (fun row => row), (fun _ => none), [])

/-- Distinct stringified values of a column (`new Set(...).size`). -/
noncomputable def cardinalityOf (numStr : ℝ → String) (data : List Row)
    (column : String) : ℕ :=
  (colKeys numStr data column).dedup.length

/-- `filterColumnsForClustering` (clustering.ts lines 2275-2311): keep
the columns whose cardinality is at most the threshold.  (The returned
`cardinalityInfo` is log-only and omitted.) -/
noncomputable def filterColumnsForClustering (numStr : ℝ → String)
    (data : List Row) (categoricalColumns : List String) (maxCardinality : ℕ) :
    List String × List String :=
  (categoricalColumns.filter (fun c => decide (cardinalityOf numStr data c ≤ maxCardinality)),
   categoricalColumns.filter (fun c => decide (¬ cardinalityOf numStr data c ≤ maxCardinality)))

/-- Result of `smartOneHotEncoding` (the log-only `validationResult` of
the source, produced by the warnings-only `analyzeDataForClustering`, is
omitted). -/
structure SmartOneHotResult where
  encodedData : List Row
  encodingMaps : String → Option (List (String × String))
  newColumns : List String
  excludedColumns : List String

/-- `smartOneHotEncoding` (clustering.ts lines 2316-2367): filter the
columns by cardinality; when no column survives, return row copies (the
excluded columns are NOT removed on this path); otherwise one-hot encode
the surviving columns and then delete the excluded columns from the
encoded rows. -/
noncomputable def smartOneHotEncoding (numStr : ℝ → String) (data : List Row)
    (categoricalColumns : List String) (maxCardinality : ℕ) :
    SmartOneHotResult :=
  let fc := filterColumnsForClustering numStr data categoricalColumns maxCardinality
  let suitableColumns := fc.1
  let excludedColumns := fc.2
  if suitableColumns = [] then
    SmartOneHotResult.mk (data.map (fun row => row)) (fun _ => none) [] excludedColumns
  else
    let oh := oneHotEncoding numStr data suitableColumns
    let encodedData := oh.1.map (fun row => excludedColumns.foldl delRow row)
    SmartOneHotResult.mk encodedData oh.2.1 oh.2.2 excludedColumns

/-- Column statistics of the normalizers. -/
structure ColumnStats where
  mean : ℝ
  std : ℝ
  statMin : ℝ
  statMax : ℝ

/-- `Math.min(...values)` over a nonempty list (the empty case is guarded
in the callers). -/
noncomputable def listMin : List ℝ → ℝ
  | [] => 0
  | x :: t => t.foldl min x

noncomputable def listMax : List ℝ → ℝ
  | [] => 0
  | x :: t => t.foldl max x

/-- `minMaxNormalization` (clustering.ts lines 2463-2516): per column,
statistics over the original `data` argument, then
`(x - min)/(max - min)` on the row copies, or 0 throughout when
`max - min = 0`; a column with no values keeps default statistics and
unchanged rows.  (`filter(isFinite)` is the identity over `ℝ`.)
The definition is split into the per-row effect `mmApply`, the statistics
`mmStats` and the per-column step `minMaxStep` below.

The coerced numeric values of a column over the original dataset: -/
noncomputable def colValues (parseNum : String → Option ℝ) (data : List Row)
    (column : String) : List ℝ :=
  data.map (fun row => jsNum parseNum (row column))

/-- Per-row effect of one min-max column pass (non-degenerate case is
`(x - min)/(max - min)`, a constant column maps to 0). -/
noncomputable def mmApply (parseNum : String → Option ℝ) (data : List Row)
    (column : String) (row : Row) : Row :=
  if (colValues parseNum data column).length = 0 then row
  else
    let values := colValues parseNum data column
    let mn := listMin values
    let mx := listMax values
    updRow row column (Value.vnum
      (if mx - mn = 0 then 0 else (jsNum parseNum (row column) - mn) / (mx - mn)))

noncomputable def mmStats (parseNum : String → Option ℝ) (data : List Row)
    (column : String) : ColumnStats :=
  if (colValues parseNum data column).length = 0 then ColumnStats.mk 0 1 0 1
  else
    let values := colValues parseNum data column
    let mean := values.sum / (values.length : ℝ)
    let variance := (values.map (fun v => (v - mean) ^ 2)).sum / (values.length : ℝ)
    ColumnStats.mk mean (Real.sqrt variance) (listMin values) (listMax values)

noncomputable def minMaxStep (parseNum : String → Option ℝ) (data : List Row)
    (st : List Row × (String → Option ColumnStats)) (column : String) :
    List Row × (String → Option ColumnStats) :=
  (st.1.map (mmApply parseNum data column),
   fun c => if c = column then some (mmStats parseNum data column) else st.2 c)

noncomputable def minMaxNormalization (parseNum : String → Option ℝ)
    (data : List Row) (numericalColumns : List String) :
    List Row × (String → Option ColumnStats) :=
  numericalColumns.foldl (minMaxStep parseNum data)
    (data.map (fun row => row), fun _ => none)

/-- `zScoreNormalization` (clustering.ts lines 1980-2024): per column,
mean and population standard deviation over the original `data`, then
`(x - mean)/std` on the row copies, or 0 throughout when `std = 0`.
Per-row effect of one z-score column pass: -/
noncomputable def zApply (parseNum : String → Option ℝ) (data : List Row)
    (column : String) (row : Row) : Row :=
  if (colValues parseNum data column).length = 0 then row
  else
    let values := colValues parseNum data column
    let mean := values.sum / (values.length : ℝ)
    let variance := (values.map (fun v => (v - mean) ^ 2)).sum / (values.length : ℝ)
    let std := Real.sqrt variance
    updRow row column (Value.vnum
      (if std = 0 then 0 else (jsNum parseNum (row column) - mean) / std))

noncomputable def zStep (parseNum : String → Option ℝ) (data : List Row)
    (st : List Row × (String → Option ColumnStats)) (column : String) :
    List Row × (String → Option ColumnStats) :=
  (st.1.map (zApply parseNum data column),
   fun c => if c = column then some (mmStats parseNum data column) else st.2 c)

noncomputable def zScoreNormalization (parseNum : String → Option ℝ)
    (data : List Row) (numericalColumns : List String) :
    List Row × (String → Option ColumnStats) :=
  numericalColumns.foldl (zStep parseNum data)
    (data.map (fun row => row), fun _ => none)

/-- The worked example of the spec: a single column `"cat"` holding the
values `"A", "A", "B", "C", "A"`. -/
def exLabelRow (s : String) : Row :=
  fun c => if c = "cat" then some (Value.vstr s) else none

def exLabelData : List Row :=
  (["A", "A", "B", "C", "A"] : List String).map exLabelRow

/-- The spec's constant-column example: a column `"n"` holding the value
5 in every one of 4 rows. -/
def exConstRow : Row := fun c => if c = "n" then some (Value.vnum 5) else none

def exConstData : List Row := [exConstRow, exConstRow, exConstRow, exConstRow]

/-- A single string column `"c"`; `exWideData` gives it 11 distinct
values (cardinality over the default threshold 10), `exOhData` two. -/
def exWideRow (s : String) : Row :=
  fun c => if c = "c" then some (Value.vstr s) else none

def exWideData : List Row :=
  (["A", "B", "C", "D", "E", "F", "G", "H", "I", "J", "K"] : List String).map exWideRow

def exOhData : List Row := [exWideRow "A", exWideRow "B"]

/-- Heap embedding for the frame claim: a JS heap of row objects,
addressed by naturals.  The caller's dataset is a list of addresses
`refs`; `data.map(row => ({...row}))` allocates value copies at the
fresh addresses `fresh, fresh+1, ...`, and every later in-place
mutation of an encoding pass targets only those copy addresses. -/
def Heap := ℕ → Row

def writeAt (h : Heap) (a : ℕ) (r : Row) : Heap :=
  fun b => if b = a then r else h b

/-- One in-place pass (`encoded.forEach(row => ...)`): rewrite the row
object at each listed address with `f`. -/
def mutateRefs (h : Heap) (addrs : List ℕ) (f : Row → Row) : Heap :=
  addrs.foldl (fun h a => writeAt h a (f (h a))) h

/-- The spread-copy allocation `data.map(row => ({...row}))`. -/
def allocCopies (h : Heap) (refs : List ℕ) (fresh : ℕ) : Heap :=
  fun a => if fresh ≤ a ∧ a < fresh + refs.length
           then h (refs.getD (a - fresh) 0) else h a

def copyAddrs (refs : List ℕ) (fresh : ℕ) : List ℕ :=
  (List.range refs.length).map (fun i => fresh + i)

/-- Copy the caller's rows to fresh addresses, then run the operation's
mutation passes in order over the copies. -/
def heapEncodeOp (h : Heap) (refs : List ℕ) (fresh : ℕ)
    (passes : List (Row → Row)) : Heap :=
  passes.foldl (fun hh f => mutateRefs hh (copyAddrs refs fresh) f)
    (allocCopies h refs fresh)

/-- `labelEncoding` on the heap: one rewrite pass per column (the
statistics are read from the caller's rows, which no pass mutates). -/
noncomputable def heapLabelEncoding (numStr : ℝ → String) (h : Heap)
    (refs : List ℕ) (fresh : ℕ) (cols : List String) : Heap :=
  heapEncodeOp h refs fresh (cols.map (fun c => labelApply numStr (refs.map h) c))

/-- `oneHotEncoding` on the heap: per column an initialise-to-0 pass
followed by a set-1-and-delete pass. -/
noncomputable def heapOneHotEncoding (numStr : ℝ → String) (h : Heap)
    (refs : List ℕ) (fresh : ℕ) (cols : List String) : Heap :=
  heapEncodeOp h refs fresh
    ((cols.map (fun c => [ohInitApply numStr (refs.map h) c,
        ohSetApply numStr (refs.map h) c])).flatten)

/-- `smartOneHotEncoding` on the heap: the one-hot passes of the
retained columns followed by the excluded-column delete pass, or no
pass at all on the early return. -/
noncomputable def heapSmartOneHotEncoding (numStr : ℝ → String) (h : Heap)
    (refs : List ℕ) (fresh : ℕ) (cols : List String) (maxCard : ℕ) : Heap :=
  if (filterColumnsForClustering numStr (refs.map h) cols maxCard).1 = [] then
    heapEncodeOp h refs fresh []
  else
    heapEncodeOp h refs fresh
      ((((filterColumnsForClustering numStr (refs.map h) cols maxCard).1.map
          (fun c => [ohInitApply numStr (refs.map h) c,
            ohSetApply numStr (refs.map h) c])).flatten)
        ++ [fun r => (filterColumnsForClustering numStr (refs.map h) cols maxCard).2.foldl
            delRow r])

noncomputable def heapMinMaxNormalization (parseNum : String → Option ℝ) (h : Heap)
    (refs : List ℕ) (fresh : ℕ) (cols : List String) : Heap :=
  heapEncodeOp h refs fresh (cols.map (fun c => mmApply parseNum (refs.map h) c))

noncomputable def heapZScoreNormalization (parseNum : String → Option ℝ) (h : Heap)
    (refs : List ℕ) (fresh : ℕ) (cols : List String) : Heap :=
  heapEncodeOp h refs fresh (cols.map (fun c => zApply parseNum (refs.map h) c))

def h0 : Heap := fun _ => emptyRow

theorem calculateEuclideanDistance_nonneg (p q : List ℝ) :
    0 ≤ calculateEuclideanDistance p q := by
  unfold calculateEuclideanDistance
  split
  · exact le_refl 0
  · exact Real.sqrt_nonneg _

theorem dbiScatter_nonneg (data : List (List ℝ)) (clusters : List ℕ)
    (centroids : List (List ℝ)) (i : ℕ) :
    0 ≤ dbiScatter data clusters centroids i := by
  simp only [dbiScatter]
  split
  · exact le_refl 0
  · refine div_nonneg (List.sum_nonneg ?_) (Nat.cast_nonneg _)
    intro x hx
    simp only [List.mem_map] at hx
    obtain ⟨idx, _, rfl⟩ := hx
    exact calculateEuclideanDistance_nonneg _ _

theorem dbiQuot_nonneg_of_mem (data : List (List ℝ)) (clusters : List ℕ)
    (centroids : List (List ℝ)) {k i j : ℕ}
    (hj : j ∈ dbiPairs centroids k i) :
    0 ≤ dbiQuot data clusters centroids i j := by
  have hM : 0.0001 < dbiM centroids i j := by
    simp only [dbiPairs, Finset.mem_filter] at hj
    exact hj.2.2
  exact div_nonneg
    (add_nonneg (dbiScatter_nonneg _ _ _ _) (dbiScatter_nonneg _ _ _ _))
    (le_of_lt (lt_trans (by norm_num) hM))

/-- The inner loop of DBI step 3 computes exactly the per-cluster
contribution, and its flag records whether any valid pair exists. -/
theorem dbiMaxRatioOf_eq (data : List (List ℝ)) (clusters : List ℕ)
    (centroids : List (List ℝ)) (i : ℕ) : ∀ n : ℕ,
    dbiMaxRatioOf data clusters centroids n i
      = (dbiContribution data clusters centroids n i,
         decide (dbiPairs centroids n i).Nonempty) := by
  intro n
  induction n with
  | zero =>
      simp [dbiMaxRatioOf, dbiContribution, dbiPairs]
  | succ n ih =>
      have hstep : dbiMaxRatioOf data clusters centroids (n + 1) i
          = (fun st j =>
              if j ≠ i ∧ 0.0001 < dbiM centroids i j then
                (max st.1 ((dbiScatter data clusters centroids i
                    + dbiScatter data clusters centroids j) / dbiM centroids i j),
                  true)
              else st)
            (dbiMaxRatioOf data clusters centroids n i) n := by
        unfold dbiMaxRatioOf
        rw [List.range_succ, List.foldl_append, List.foldl_cons, List.foldl_nil]
      have hpairs : dbiPairs centroids (n + 1) i
          = if n ≠ i ∧ 0.0001 < dbiM centroids i n then
              insert n (dbiPairs centroids n i)
            else dbiPairs centroids n i := by
        unfold dbiPairs
        rw [Finset.range_succ, Finset.filter_insert]
      rw [hstep, ih]
      dsimp only
      by_cases hc : n ≠ i ∧ 0.0001 < dbiM centroids i n
      · rw [if_pos hc]
        have hne1 : (dbiPairs centroids (n + 1) i).Nonempty := by
          rw [hpairs, if_pos hc]
          exact Finset.insert_nonempty _ _
        refine Prod.ext ?_ ?_
        · show _ = dbiContribution data clusters centroids (n + 1) i
          by_cases hP : (dbiPairs centroids n i).Nonempty
          · simp only [dbiContribution, dif_pos hP, hpairs, if_pos hc]
            rw [dif_pos (Finset.insert_nonempty _ _)]
            rw [Finset.sup'_insert]
            exact max_comm _ _
          · have hPe : dbiPairs centroids n i = ∅ :=
              Finset.not_nonempty_iff_eq_empty.mp hP
            have hq : 0 ≤ dbiQuot data clusters centroids i n := by
              refine dbiQuot_nonneg_of_mem data clusters centroids
                (k := n + 1) (i := i) ?_
              rw [hpairs, if_pos hc, hPe]
              simp
            have h0 : dbiContribution data clusters centroids n i = 0 :=
              dif_neg hP
            have hR : dbiContribution data clusters centroids (n + 1) i
                = (dbiPairs centroids (n + 1) i).sup' hne1
                    (dbiQuot data clusters centroids i) := dif_pos hne1
            have hset : dbiPairs centroids (n + 1) i = ({n} : Finset ℕ) := by
              rw [hpairs, if_pos hc, hPe]
              simp
            have hsup : (dbiPairs centroids (n + 1) i).sup' hne1
                  (dbiQuot data clusters centroids i)
                = ({n} : Finset ℕ).sup' (Finset.singleton_nonempty n)
                    (dbiQuot data clusters centroids i) :=
              Finset.sup'_congr hne1 hset (fun x _ => rfl)
            rw [h0, hR, hsup, Finset.sup'_singleton]
            exact max_eq_right hq
        · show true = decide (dbiPairs centroids (n + 1) i).Nonempty
          exact (decide_eq_true hne1).symm
      · rw [if_neg hc]
        simp only [dbiContribution, hpairs, if_neg hc]

/-- The outer loop of DBI step 3 computes the sum of contributions over,
and the number of, the clusters having a valid pair. -/
theorem dbiAcc_eq (data : List (List ℝ)) (clusters : List ℕ)
    (centroids : List (List ℝ)) (k : ℕ) : ∀ n : ℕ,
    (List.range n).foldl
      (fun st i =>
        let mr := dbiMaxRatioOf data clusters centroids k i
        if mr.2 then (st.1 + mr.1, st.2 + 1) else st)
      ((0 : ℝ), (0 : ℕ))
      = (Finset.sum ((Finset.range n).filter
            (fun i => (dbiPairs centroids k i).Nonempty))
          (dbiContribution data clusters centroids k),
         ((Finset.range n).filter
            (fun i => (dbiPairs centroids k i).Nonempty)).card) := by
  intro n
  induction n with
  | zero => simp
  | succ n ih =>
      rw [List.range_succ, List.foldl_append, List.foldl_cons, List.foldl_nil, ih]
      have hV : (Finset.range (n + 1)).filter
            (fun i => (dbiPairs centroids k i).Nonempty)
          = if (dbiPairs centroids k n).Nonempty then
              insert n ((Finset.range n).filter
                (fun i => (dbiPairs centroids k i).Nonempty))
            else (Finset.range n).filter
              (fun i => (dbiPairs centroids k i).Nonempty) := by
        rw [Finset.range_succ, Finset.filter_insert]
      rw [dbiMaxRatioOf_eq, hV]
      by_cases hne : (dbiPairs centroids k n).Nonempty
      · have hnmem : n ∉ (Finset.range n).filter
            (fun i => (dbiPairs centroids k i).Nonempty) := by
          simp [Finset.mem_filter]
        rw [if_pos hne]
        simp only [decide_eq_true hne]
        rw [if_true]
        rw [Finset.sum_insert hnmem, Finset.card_insert_of_not_mem hnmem]
        simp [add_comm]
      · simp [hne]

/-- Helper: the source DBI equals its corrected closed form `dbiAmended`. -/
theorem calculateDaviesBouldinIndex_eq_amended (data : List (List ℝ))
    (clusters : List ℕ) (centroids : List (List ℝ)) :
    calculateDaviesBouldinIndex data clusters centroids
      = dbiAmended data clusters centroids := by
  unfold calculateDaviesBouldinIndex dbiAmended
  by_cases hk : centroids.length ≤ 1
  · simp [hk]
  · by_cases hd : data = []
    · simp [hk, hd]
    · simp only [if_neg hk, if_neg hd]
      rw [dbiAcc_eq data clusters centroids centroids.length centroids.length]
      have h1k : 1 < centroids.length := Nat.lt_of_not_le hk
      set V := (Finset.range centroids.length).filter
        (fun i => (dbiPairs centroids centroids.length i).Nonempty) with hVdef
      by_cases hc : 0 < V.card
      · have hc2 : ¬ V.card = 0 := Nat.pos_iff_ne_zero.mp hc
        simp only [hc, if_true, if_neg hc2, h1k, and_true]
      · have hc2 : V.card = 0 := Nat.eq_zero_of_not_pos hc
        simp [hc, hc2, h1k]

/-- Claim C3, corrected.  The DBI function returns 0 whenever `k ≤ 1`,
and otherwise computes the per-cluster maximal quotients over valid pairs
(`M_ij > 0.0001`), but divides their sum by the number of clusters that
have at least one valid pair — not by `k` — and replaces an exact-zero
result by the sentinel `0.001` (`dbiAmended` is this corrected closed
form). -/
theorem dbi_zero_of_few_centroids (data : List (List ℝ)) (clusters : List ℕ)
    (centroids : List (List ℝ)) (hk : centroids.length ≤ 1) :
    calculateDaviesBouldinIndex data clusters centroids = 0 := by
  unfold calculateDaviesBouldinIndex
  simp [hk]

theorem dbi_zero_for_k_le_one_and_amended_formula :
    (∀ (data : List (List ℝ)) (clusters : List ℕ) (centroids : List (List ℝ)),
      centroids.length ≤ 1 → calculateDaviesBouldinIndex data clusters centroids = 0)
    ∧ ∀ (data : List (List ℝ)) (clusters : List ℕ) (centroids : List (List ℝ)),
      calculateDaviesBouldinIndex data clusters centroids
        = dbiAmended data clusters centroids :=
  ⟨dbi_zero_of_few_centroids, calculateDaviesBouldinIndex_eq_amended⟩

/-- Witness for the corrected claim C3 at a concrete input. -/
theorem dbi_zero_for_k_le_one_witness :
    calculateDaviesBouldinIndex [[(0 : ℝ)], [1]] [0, 0] [[(0 : ℝ)]] = 0 :=
  dbi_zero_for_k_le_one_and_amended_formula.1 [[(0 : ℝ)], [1]] [0, 0] [[(0 : ℝ)]]
    (by norm_num)

/-- Counterexample to claim C3 as stated: at data `[[0],[1]]`, assignments
`[0,1]` and coincident centroids `[[0],[0]]` the claimed formula
`(1/k)·Σᵢ maxⱼ (Sᵢ+Sⱼ)/Mᵢⱼ` gives 0 (every pair is skipped because
`M₀₁ = 0`), but the source function returns the sentinel `0.001`. -/
theorem dbi_claimed_formula_counterexample :
    calculateDaviesBouldinIndex [[(0 : ℝ)], [1]] [0, 1] [[(0 : ℝ)], [0]] = 0.001
    ∧ dbiClaimed [[(0 : ℝ)], [1]] [0, 1] [[(0 : ℝ)], [0]] = 0 := by
  have hM : ∀ i j : ℕ, i < 2 → j < 2 → dbiM [[(0 : ℝ)], [0]] i j = 0 := by
    intro i j hi hj
    interval_cases i <;> interval_cases j <;>
      norm_num [dbiM, calculateEuclideanDistance]
  have hpairs : ∀ i : ℕ, i < 2 → dbiPairs [[(0 : ℝ)], [0]] 2 i = ∅ := by
    intro i hi
    unfold dbiPairs
    rw [Finset.filter_eq_empty_iff]
    intro j hj
    rw [Finset.mem_range] at hj
    rintro ⟨hne, hlt⟩
    rw [hM i j hi hj] at hlt
    norm_num at hlt
  have hV : (Finset.range 2).filter
      (fun i => (dbiPairs [[(0 : ℝ)], [0]] 2 i).Nonempty) = ∅ := by
    rw [Finset.filter_eq_empty_iff]
    intro i hi
    rw [Finset.mem_range] at hi
    rw [hpairs i hi]
    exact Finset.not_nonempty_empty
  constructor
  · rw [calculateDaviesBouldinIndex_eq_amended]
    unfold dbiAmended
    simp only [List.length_cons, List.length_nil]
    rw [if_neg (by norm_num)]
    rw [if_neg (by simp)]
    simp only [hV, Finset.card_empty, if_pos rfl]
    norm_num
  · unfold dbiClaimed
    simp only [List.length_cons, List.length_nil]
    rw [if_neg (by norm_num)]
    have hsum : Finset.sum (Finset.range 2)
        (dbiContribution [[(0 : ℝ)], [1]] [0, 1] [[(0 : ℝ)], [0]] 2) = 0 := by
      refine Finset.sum_eq_zero ?_
      intro i hi
      rw [Finset.mem_range] at hi
      have hpi : dbiPairs [[(0 : ℝ)], [0]] 2 i = ∅ := hpairs i hi
      simp [dbiContribution, hpi]
    rw [hsum, mul_zero]

theorem clusterCounts_go_length (clusters : List ℕ) (k : ℕ) :
    ∀ init : List ℕ,
      (clusters.foldl
        (fun acc c => if c < k then acc.set c (acc.getD c 0 + 1) else acc)
        init).length = init.length := by
  induction clusters with
  | nil => intro init; rfl
  | cons c t ih =>
      intro init
      rw [List.foldl_cons, ih]
      by_cases hc : c < k
      · rw [if_pos hc, List.length_set]
      · rw [if_neg hc]

theorem clusterCounts_length (clusters : List ℕ) (k : ℕ) :
    (clusterCounts clusters k).length = k := by
  rw [clusterCounts, clusterCounts_go_length, List.length_replicate]

theorem getD_set_self (l : List ℕ) (n a : ℕ) (h : n < l.length) :
    (l.set n a).getD n 0 = a := by
  rw [List.getD_eq_getElem?_getD, List.getElem?_set_self', List.getElem?_eq_getElem h]
  rfl

theorem getD_set_other (l : List ℕ) (n m a : ℕ) (h : n ≠ m) :
    (l.set n a).getD m 0 = l.getD m 0 := by
  rw [List.getD_eq_getElem?_getD, List.getElem?_set_ne h, ← List.getD_eq_getElem?_getD]

theorem clusterCounts_go_getD (k j : ℕ) (clusters : List ℕ) :
    ∀ init : List ℕ, init.length = k → j < k →
      (clusters.foldl
        (fun acc c => if c < k then acc.set c (acc.getD c 0 + 1) else acc)
        init).getD j 0 = init.getD j 0 + clusters.count j := by
  induction clusters with
  | nil => intro init _ _; simp
  | cons c t ih =>
      intro init hlen hj
      rw [List.foldl_cons]
      by_cases hc : c < k
      · rw [if_pos hc]
        rw [ih _ (by rw [List.length_set]; exact hlen) hj]
        by_cases hcj : c = j
        · subst hcj
          rw [getD_set_self _ _ _ (hlen ▸ hc), List.count_cons_self]
          omega
        · rw [getD_set_other _ _ _ _ hcj, List.count_cons_of_ne (fun h => hcj h.symm)]
      · rw [if_neg hc]
        have hcj : c ≠ j := fun h => hc (h ▸ hj)
        rw [ih _ hlen hj, List.count_cons_of_ne (fun h => hcj h.symm)]

/-- Entry `j` of the count array is the number of points assigned to
cluster `j`. -/
theorem clusterCounts_getD (clusters : List ℕ) (k j : ℕ) (hj : j < k) :
    (clusterCounts clusters k).getD j 0 = clusters.count j := by
  rw [clusterCounts,
    clusterCounts_go_getD k j clusters _ (List.length_replicate k 0) hj]
  rw [List.getD_eq_getElem?_getD, List.getElem?_replicate_of_lt hj]
  simp

/-- The empty-cluster rejection test of the source (`filter(c => c === 0)`
nonempty) holds iff some cluster below `k` has no assigned point. -/
theorem clusterCounts_zero_iff (clusters : List ℕ) (k : ℕ) :
    (0 < ((clusterCounts clusters k).filter (fun c => decide (c = 0))).length)
      ↔ ∃ j < k, j ∉ clusters := by
  constructor
  · intro h
    have hne : ((clusterCounts clusters k).filter (fun c => decide (c = 0))) ≠ [] := by
      intro hnil
      rw [hnil] at h
      exact Nat.lt_irrefl 0 h
    obtain ⟨x, hx⟩ := List.exists_mem_of_ne_nil _ hne
    have hx2 := List.of_mem_filter hx
    have hx1 := List.mem_of_mem_filter hx
    have hx0 : x = 0 := by simpa using hx2
    obtain ⟨⟨j, hjlen⟩, hget⟩ := List.get_of_mem hx1
    have hjk : j < k := by
      rw [clusterCounts_length] at hjlen
      exact hjlen
    refine ⟨j, hjk, ?_⟩
    have hcount : clusters.count j = 0 := by
      have : (clusterCounts clusters k).getD j 0 = x := by
        rw [List.getD_eq_getElem?_getD, List.getElem?_eq_getElem hjlen]
        simpa using hget
      rw [clusterCounts_getD clusters k j hjk] at this
      rw [this, hx0]
    intro hmem
    have := List.count_pos_iff.mpr hmem
    omega
  · rintro ⟨j, hjk, hnotmem⟩
    have hcount : clusters.count j = 0 := by
      by_contra h
      exact hnotmem (List.count_pos_iff.mp (Nat.pos_of_ne_zero h))
    have hj0 : (clusterCounts clusters k).getD j 0 = 0 := by
      rw [clusterCounts_getD clusters k j hjk, hcount]
    have hjlen : j < (clusterCounts clusters k).length := by
      rw [clusterCounts_length]; exact hjk
    have hmem : (0 : ℕ) ∈ (clusterCounts clusters k).filter (fun c => decide (c = 0)) := by
      rw [List.mem_filter]
      constructor
      · rw [← hj0]
        rw [List.getD_eq_getElem?_getD, List.getElem?_eq_getElem hjlen]
        exact List.getElem_mem _
      · simp
    exact List.length_pos.mpr (List.ne_nil_of_mem hmem)

theorem sum_set_add (a : ℕ) : ∀ (l : List ℕ) (n : ℕ), n < l.length →
    (l.set n (l.getD n 0 + a)).sum = l.sum + a := by
  intro l
  induction l with
  | nil => intro n h; simp at h
  | cons x t ih =>
      intro n hn
      match n with
      | 0 => simp [List.set, List.getD]; omega
      | (m + 1) =>
          have hm : m < t.length := by simpa using hn
          simp only [List.set, List.sum_cons, List.getD_cons_succ]
          rw [ih m hm]
          omega

theorem clusterCounts_go_sum (k : ℕ) (clusters : List ℕ) :
    ∀ init : List ℕ, init.length = k →
      (clusters.foldl
        (fun acc c => if c < k then acc.set c (acc.getD c 0 + 1) else acc)
        init).sum = init.sum + (clusters.filter (fun c => decide (c < k))).length := by
  induction clusters with
  | nil => intro init _; simp
  | cons c t ih =>
      intro init hlen
      rw [List.foldl_cons]
      by_cases hc : c < k
      · rw [if_pos hc, ih _ (by rw [List.length_set]; exact hlen)]
        rw [sum_set_add 1 init c (hlen ▸ hc)]
        have : (List.filter (fun c => decide (c < k)) (c :: t)).length
            = (List.filter (fun c => decide (c < k)) t).length + 1 := by
          rw [List.filter_cons_of_pos (by simpa using hc)]
          simp
        omega
      · rw [if_neg hc, ih _ hlen]
        rw [List.filter_cons_of_neg (by simpa using hc)]

/-- The counts sum to the number of in-range assignments; with every
assignment in range they sum to the number of points. -/
theorem clusterCounts_sum (clusters : List ℕ) (k : ℕ)
    (h : ∀ c ∈ clusters, c < k) :
    (clusterCounts clusters k).sum = clusters.length := by
  rw [clusterCounts, clusterCounts_go_sum k clusters _ (List.length_replicate k 0)]
  rw [List.sum_replicate, smul_zero]
  rw [List.filter_eq_self.mpr (fun c hc => by simpa using h c hc)]
  simp

theorem retryStep_preserves (lib : KMeansLib) (features : List (List ℝ))
    (k : ℕ) (seen : List ℕ) (st : Option (ℝ × RawKMeans)) (a : ℕ)
    (h : RetryInv lib features k seen st) :
    RetryInv lib features k (seen ++ [a]) (retryStep lib features k st a) := by
  obtain ⟨hnone, hsome⟩ := h
  unfold retryStep
  cases hlib : lib features k (42 + a * 17) (300 + a * 50) with
  | none =>
      constructor
      · rw [hnone]
        constructor
        · intro hall b hb r
          rw [List.mem_append] at hb
          rcases hb with hb | hb
          · exact hall b hb r
          · rw [List.mem_singleton] at hb
            subst hb
            rintro ⟨heq, _⟩
            rw [hlib] at heq
            exact Option.noConfusion heq
        · intro hall b hb r
          exact hall b (List.mem_append_left _ hb) r
      · intro w r hst
        obtain ⟨hw, ⟨b, hb, hacc⟩, hmin⟩ := hsome w r hst
        refine ⟨hw, ⟨b, List.mem_append_left _ hb, hacc⟩, ?_⟩
        intro c hc r2 hacc2
        rw [List.mem_append] at hc
        rcases hc with hc | hc
        · exact hmin c hc r2 hacc2
        · rw [List.mem_singleton] at hc
          subst hc
          rw [hacc2.1] at hlib
          exact Option.noConfusion hlib
  | some result =>
      dsimp only
      by_cases hempty : 0 < ((clusterCounts result.clusters k).filter
          (fun c => decide (c = 0))).length
      · rw [if_pos hempty]
        have hrej : ∀ r, ¬ acceptedAttempt lib features k a r := by
          intro r
          rintro ⟨heq, hfull⟩
          rw [hlib] at heq
          injection heq with heq
          subst heq
          obtain ⟨j, hjk, hjnot⟩ := (clusterCounts_zero_iff _ _).mp hempty
          exact hjnot (hfull j hjk)
        constructor
        · rw [hnone]
          constructor
          · intro hall b hb r
            rw [List.mem_append] at hb
            rcases hb with hb | hb
            · exact hall b hb r
            · rw [List.mem_singleton] at hb
              subst hb
              exact hrej r
          · intro hall b hb r
            exact hall b (List.mem_append_left _ hb) r
        · intro w r hst
          obtain ⟨hw, ⟨b, hb, hacc⟩, hmin⟩ := hsome w r hst
          refine ⟨hw, ⟨b, List.mem_append_left _ hb, hacc⟩, ?_⟩
          intro c hc r2 hacc2
          rw [List.mem_append] at hc
          rcases hc with hc | hc
          · exact hmin c hc r2 hacc2
          · rw [List.mem_singleton] at hc
            subst hc
            exact absurd hacc2 (hrej r2)
      · rw [if_neg hempty]
        have hacc : acceptedAttempt lib features k a result := by
          refine ⟨hlib, ?_⟩
          intro j hjk
          by_contra hnot
          exact hempty ((clusterCounts_zero_iff _ _).mpr ⟨j, hjk, hnot⟩)
        have haccuniq : ∀ r2, acceptedAttempt lib features k a r2 → r2 = result := by
          intro r2 h2
          have := h2.1
          rw [hlib] at this
          injection this with this
          exact this.symm
        cases hst : st with
        | none =>
            dsimp only
            have hallseen := hnone.mp hst
            constructor
            · constructor
              · intro hcon
                exact Option.noConfusion hcon
              · intro hall
                exact absurd hacc (hall a (List.mem_append_right _ (List.mem_singleton_self a)) result)
            · intro w r hwr
              injection hwr with hwr
              have hw : w = calculateWCSS features result.clusters result.centroids ∧ r = result := by
                constructor
                · exact (congrArg Prod.fst hwr).symm
                · exact (congrArg Prod.snd hwr).symm
              obtain ⟨hw1, hw2⟩ := hw
              subst hw2
              refine ⟨hw1, ⟨a, List.mem_append_right _ (List.mem_singleton_self a), hacc⟩, ?_⟩
              intro c hc r2 hacc2
              rw [List.mem_append] at hc
              rcases hc with hc | hc
              · exact absurd hacc2 (hallseen c hc r2)
              · rw [List.mem_singleton] at hc
                subst hc
                rw [haccuniq r2 hacc2, hw1]
        | some b =>
            dsimp only
            obtain ⟨hbw, ⟨c0, hc0, hacc0⟩, hbmin⟩ := hsome b.1 b.2 (by rw [hst])
            by_cases hlt : calculateWCSS features result.clusters result.centroids < b.1
            · rw [if_pos hlt]
              constructor
              · constructor
                · intro hcon
                  exact Option.noConfusion hcon
                · intro hall
                  exact absurd hacc
                    (hall a (List.mem_append_right _ (List.mem_singleton_self a)) result)
              · intro w r hwr
                injection hwr with hwr
                have hw1 : w = calculateWCSS features result.clusters result.centroids :=
                  (congrArg Prod.fst hwr).symm
                have hw2 : r = result := (congrArg Prod.snd hwr).symm
                subst hw2
                refine ⟨hw1, ⟨a, List.mem_append_right _ (List.mem_singleton_self a), hacc⟩, ?_⟩
                intro c hc r2 hacc2
                rw [List.mem_append] at hc
                rcases hc with hc | hc
                · have := hbmin c hc r2 hacc2
                  rw [hw1]
                  exact le_trans (le_of_lt hlt) this
                · rw [List.mem_singleton] at hc
                  subst hc
                  rw [haccuniq r2 hacc2, hw1]
            · rw [if_neg hlt]
              constructor
              · constructor
                · intro hcon
                  exact Option.noConfusion hcon
                · intro hall
                  exact absurd hacc
                    (hall a (List.mem_append_right _ (List.mem_singleton_self a)) result)
              · intro w r hwr
                injection hwr with hwr
                have hw1 : w = b.1 := (congrArg Prod.fst hwr).symm
                have hw2 : r = b.2 := (congrArg Prod.snd hwr).symm
                subst hw2
                refine ⟨hw1 ▸ hbw, ⟨c0, List.mem_append_left _ hc0, hacc0⟩, ?_⟩
                intro c hc r2 hacc2
                rw [List.mem_append] at hc
                rcases hc with hc | hc
                · exact hw1 ▸ hbmin c hc r2 hacc2
                · rw [List.mem_singleton] at hc
                  subst hc
                  rw [haccuniq r2 hacc2]
                  rw [hw1]
                  exact le_of_not_lt hlt

theorem retry_fold_spec (lib : KMeansLib) (features : List (List ℝ)) (k : ℕ) :
    ∀ (L seen : List ℕ) (st : Option (ℝ × RawKMeans)),
      RetryInv lib features k seen st →
      RetryInv lib features k (seen ++ L) (L.foldl (retryStep lib features k) st) := by
  intro L
  induction L with
  | nil => intro seen st h; simpa using h
  | cons a t ih =>
      intro seen st h
      rw [List.foldl_cons]
      have h2 := retryStep_preserves lib features k seen st a h
      have h3 := ih (seen ++ [a]) _ h2
      simpa using h3

theorem extractFeatures_go_length (parseNum : String → Option ℝ)
    (cols : List String) (data : List Row) :
    ∀ init : List (List ℝ),
      (data.foldl
        (fun features row =>
          let values := cols.map (fun column => jsNum parseNum (row column))
          if values.length = cols.length then features ++ [values]
          else features)
        init).length = init.length + data.length := by
  induction data with
  | nil => intro init; simp
  | cons r t ih =>
      intro init
      rw [List.foldl_cons]
      dsimp only
      rw [if_pos (List.length_map _ _)]
      rw [ih]
      simp
      omega

/-- Feature extraction keeps one vector per row. -/
theorem extractFeatures_length (parseNum : String → Option ℝ)
    (data : List Row) (cols : List String) :
    (extractFeatures parseNum data cols).length = data.length := by
  rw [extractFeatures, extractFeatures_go_length]
  simp

/-- The repaired assignments: round-robin when the length was wrong, the
raw assignments otherwise. -/
theorem validate_clusters_eq (rand : ℕ → ℝ) (ctr : ℕ) (result : RawKMeans)
    (k dataLength : ℕ) (features : List (List ℝ)) :
    (validateClusteringResult rand ctr result k dataLength features).1.clusters
      = if result.clusters.length ≠ dataLength
        then (List.range dataLength).map (fun i => i % k)
        else result.clusters := rfl

theorem validate_clusters_length (rand : ℕ → ℝ) (ctr : ℕ) (result : RawKMeans)
    (k dataLength : ℕ) (features : List (List ℝ)) :
    (validateClusteringResult rand ctr result k dataLength features).1.clusters.length
      = dataLength := by
  rw [validate_clusters_eq]
  by_cases h : result.clusters.length ≠ dataLength
  · rw [if_pos h, List.length_map, List.length_range]
  · rw [if_neg h]
    exact Decidable.not_not.mp h

theorem centroidRebuildStep_fst_length (rand : ℕ → ℝ) (clusters : List ℕ)
    (featureDimensions : ℕ) (features : List (List ℝ))
    (st : List (List ℝ) × ℕ) (i : ℕ) :
    ((centroidRebuildStep rand clusters featureDimensions features st i).1).length
      = st.1.length + 1 := by
  unfold centroidRebuildStep
  dsimp only
  split
  · simp
  · simp

theorem rebuildCentroids_go_length (rand : ℕ → ℝ) (clusters : List ℕ)
    (featureDimensions : ℕ) (features : List (List ℝ)) :
    ∀ (L : List ℕ) (st : List (List ℝ) × ℕ),
      ((L.foldl
        (centroidRebuildStep rand clusters featureDimensions features) st).1).length
        = st.1.length + L.length := by
  intro L
  induction L with
  | nil => intro st; simp
  | cons i t ih =>
      intro st
      rw [List.foldl_cons, ih, centroidRebuildStep_fst_length]
      rw [List.length_cons]
      omega

/-- The centroids of the repaired result: the rebuilt list when the count
was wrong, the raw centroids otherwise. -/
theorem validate_centroids_eq (rand : ℕ → ℝ) (ctr : ℕ) (result : RawKMeans)
    (k dataLength : ℕ) (features : List (List ℝ)) :
    (validateClusteringResult rand ctr result k dataLength features).1.centroids
      = (if result.centroids.length ≠ k then
          rebuildCentroids rand
            (if result.clusters.length ≠ dataLength
              then (List.range dataLength).map (fun i => i % k)
              else result.clusters)
            (if (features.headD []).length = 0 then 2
              else (features.headD []).length)
            features k ctr
        else (result.centroids, ctr)).1 := rfl

/-- The repaired centroid list always has exactly `k` entries. -/
theorem validate_centroids_length (rand : ℕ → ℝ) (ctr : ℕ) (result : RawKMeans)
    (k dataLength : ℕ) (features : List (List ℝ)) :
    (validateClusteringResult rand ctr result k dataLength features).1.centroids.length
      = k := by
  rw [validate_centroids_eq]
  by_cases h : result.centroids.length ≠ k
  · rw [if_pos h]
    rw [rebuildCentroids, rebuildCentroids_go_length]
    simp
  · rw [if_neg h]
    exact Decidable.not_not.mp h

/-- Claim C2: the multi-restart runner rejects every attempt that leaves
a cluster empty, keeps among the accepted attempts one of minimal WCSS,
and throws (returns `none`) iff every attempt was rejected or threw. -/
theorem runKMeansWithRetry_rejects_empty_keeps_min_wcss
    (lib : KMeansLib) (features : List (List ℝ)) (k maxAttempts : ℕ) :
    (runKMeansWithRetry lib features k maxAttempts = none ↔
      ∀ a < maxAttempts, ∀ r, ¬ acceptedAttempt lib features k a r)
    ∧ ∀ r, runKMeansWithRetry lib features k maxAttempts = some r →
        (∀ j < k, j ∈ r.clusters)
        ∧ (∃ a < maxAttempts, acceptedAttempt lib features k a r)
        ∧ ∀ a < maxAttempts, ∀ r2, acceptedAttempt lib features k a r2 →
            calculateWCSS features r.clusters r.centroids
              ≤ calculateWCSS features r2.clusters r2.centroids := by
  have hbase : RetryInv lib features k [] none := by
    constructor
    · constructor
      · intro _ a ha
        exact absurd ha (List.not_mem_nil a)
      · intro _
        rfl
    · intro w r h
      exact Option.noConfusion h
  have hinv := retry_fold_spec lib features k (List.range maxAttempts) [] none hbase
  rw [List.nil_append] at hinv
  obtain ⟨hnone, hsome⟩ := hinv
  constructor
  · constructor
    · intro h
      have hn : (List.range maxAttempts).foldl (retryStep lib features k) none = none := by
        unfold runKMeansWithRetry at h
        exact Option.map_eq_none'.mp h
      intro a ha r
      exact hnone.mp hn a (List.mem_range.mpr ha) r
    · intro h
      have hn : (List.range maxAttempts).foldl (retryStep lib features k) none = none :=
        hnone.mpr (fun a ha r => h a (List.mem_range.mp ha) r)
      unfold runKMeansWithRetry
      rw [hn]
      rfl
  · intro r hr
    unfold runKMeansWithRetry at hr
    cases hstv : (List.range maxAttempts).foldl (retryStep lib features k) none with
    | none =>
        rw [hstv] at hr
        exact Option.noConfusion hr
    | some b =>
        rw [hstv] at hr
        simp only [Option.map_some'] at hr
        injection hr with hr
        obtain ⟨hw, ⟨a, ha, hacc⟩, hmin⟩ := hsome b.1 b.2 (by rw [hstv])
        subst hr
        refine ⟨hacc.2, ⟨a, List.mem_range.mp ha, hacc⟩, ?_⟩
        intro a2 ha2 r2 hacc2
        have := hmin a2 (List.mem_range.mpr ha2) r2 hacc2
        rw [hw] at this
        exact this

theorem clusterCounts_mem_pos (clusters : List ℕ) (k : ℕ)
    (hfull : ∀ j < k, j ∈ clusters) :
    ∀ s ∈ clusterCounts clusters k, s ≠ 0 := by
  intro s hs
  obtain ⟨i, hi, hgeti⟩ := List.mem_iff_getElem.mp hs
  have hik : i < k := by
    rw [clusterCounts_length] at hi
    exact hi
  have hgd : (clusterCounts clusters k).getD i 0 = clusters.count i :=
    clusterCounts_getD _ _ _ hik
  rw [List.getD_eq_getElem?_getD, List.getElem?_eq_getElem hi] at hgd
  simp only [Option.getD_some] at hgd
  have hpos : 0 < clusters.count i := List.count_pos_iff.mpr (hfull i hik)
  rw [hgeti] at hgd
  omega

/-- After the repair pass the assignments are still in range and still
cover every cluster, provided the raw result did (or the round-robin
rebuild ran with `1 ≤ k ≤ n`). -/
theorem validate_clusters_inrange_full (rand : ℕ → ℝ) (ctr : ℕ)
    (raw : RawKMeans) (k n : ℕ) (f : List (List ℝ))
    (hk : 1 ≤ k) (hkn : k ≤ n)
    (hin : ∀ c ∈ raw.clusters, c < k) (hfull : ∀ j < k, j ∈ raw.clusters) :
    (∀ c ∈ (validateClusteringResult rand ctr raw k n f).1.clusters, c < k)
    ∧ ∀ j < k, j ∈ (validateClusteringResult rand ctr raw k n f).1.clusters := by
  rw [validate_clusters_eq]
  by_cases h : raw.clusters.length ≠ n
  · rw [if_pos h]
    constructor
    · intro c hc
      rw [List.mem_map] at hc
      obtain ⟨i, _, rfl⟩ := hc
      exact Nat.mod_lt i hk
    · intro j hj
      rw [List.mem_map]
      refine ⟨j, List.mem_range.mpr (lt_of_lt_of_le hj hkn), Nat.mod_eq_of_lt hj⟩
  · rw [if_neg h]
    exact ⟨hin, hfull⟩

/-- Claim C1: whenever `performKMeansClustering` returns, the result is
structurally valid: one assignment per row, exactly `k` centroids,
cluster sizes that sum to the row count, and no empty cluster.  The
hypothesis `LibInRange lib` is the spec-modelled contract of the external
`ml-kmeans` package (spec 4.5: points are assigned to one of the `k`
centroids). -/
theorem performKMeansClustering_structurally_valid
    (lib : KMeansLib) (rand : ℕ → ℝ) (ctr : ℕ) (parseNum : String → Option ℝ)
    (data : List Row) (cols : List String) (k : ℕ) (res : ClusteringResult)
    (hlib : LibInRange lib)
    (hres : performKMeansClustering lib rand ctr parseNum data cols k = some res) :
    res.clusters.length = data.length
    ∧ res.centroids.length = k
    ∧ res.clusterSizes.sum = data.length
    ∧ ∀ s ∈ res.clusterSizes, s ≠ 0 := by
  unfold performKMeansClustering at hres
  by_cases h1 : data.length = 0
  · rw [if_pos h1] at hres
    exact Option.noConfusion hres
  rw [if_neg h1] at hres
  by_cases h2 : cols.length = 0
  · rw [if_pos h2] at hres
    exact Option.noConfusion hres
  rw [if_neg h2] at hres
  by_cases h3 : k < 1 ∨ data.length < k
  · rw [if_pos h3] at hres
    exact Option.noConfusion hres
  rw [if_neg h3] at hres
  dsimp only at hres
  by_cases h4 : (extractFeatures parseNum data cols).length = 0
  · rw [if_pos h4] at hres
    exact Option.noConfusion hres
  rw [if_neg h4] at hres
  by_cases h5 : (extractFeatures parseNum data cols).length < k
  · rw [if_pos h5] at hres
    exact Option.noConfusion hres
  rw [if_neg h5] at hres
  cases hretry : runKMeansWithRetry lib (extractFeatures parseNum data cols) k 10 with
  | none =>
      rw [hretry] at hres
      exact Option.noConfusion hres
  | some raw =>
      rw [hretry] at hres
      dsimp only at hres
      injection hres with hres
      have hk1 : 1 ≤ k := by omega
      have hkn : k ≤ (extractFeatures parseNum data cols).length := by omega
      have hnd : (extractFeatures parseNum data cols).length = data.length :=
        extractFeatures_length parseNum data cols
      obtain ⟨hfullraw, ⟨a, _, hacc⟩, _⟩ :=
        (runKMeansWithRetry_rejects_empty_keeps_min_wcss lib
          (extractFeatures parseNum data cols) k 10).2 raw hretry
      have hinraw : ∀ c ∈ raw.clusters, c < k :=
        hlib (extractFeatures parseNum data cols) k _ _ raw hacc.1
      obtain ⟨hin, hfull⟩ := validate_clusters_inrange_full rand ctr raw k
        (extractFeatures parseNum data cols).length
        (extractFeatures parseNum data cols) hk1 hkn hinraw hfullraw
      have hclen : (validateClusteringResult rand ctr raw k
          (extractFeatures parseNum data cols).length
          (extractFeatures parseNum data cols)).1.clusters.length
          = (extractFeatures parseNum data cols).length :=
        validate_clusters_length _ _ _ _ _ _
      subst hres
      refine ⟨?_, ?_, ?_, ?_⟩
      · dsimp only
        rw [hclen, hnd]
      · dsimp only
        exact validate_centroids_length _ _ _ _ _ _
      · dsimp only
        rw [clusterCounts_sum _ _ hin, hclen, hnd]
      · dsimp only
        exact clusterCounts_mem_pos _ _ hfull

theorem rebuild_fst_rand_independent (rand1 rand2 : ℕ → ℝ) (clusters : List ℕ)
    (d : ℕ) (f : List (List ℝ)) :
    ∀ (L : List ℕ) (acc : List (List ℝ)) (c1 c2 : ℕ),
      (∀ i ∈ L, 0 < ((f.enum.filter
          (fun p => decide (clusters[p.1]? = some i))).map Prod.snd).length) →
      (L.foldl (centroidRebuildStep rand1 clusters d f) (acc, c1)).1
        = (L.foldl (centroidRebuildStep rand2 clusters d f) (acc, c2)).1 := by
  intro L
  induction L with
  | nil => intro acc c1 c2 _; rfl
  | cons i t ih =>
      intro acc c1 c2 hpts
      rw [List.foldl_cons, List.foldl_cons]
      have hi := hpts i (List.mem_cons_self i t)
      unfold centroidRebuildStep
      dsimp only
      rw [if_pos hi, if_pos hi]
      exact ih _ _ _ (fun j hj => hpts j (List.mem_cons_of_mem i hj))

/-- Under the conditions established by the runner (an accepted result
and `1 ≤ k ≤ n`), the repair pass never reaches its `Math.random`
fallback, so the repaired result does not depend on the random oracle. -/
theorem validate_fst_rand_independent (rand1 rand2 : ℕ → ℝ) (ctr1 ctr2 : ℕ)
    (raw : RawKMeans) (k : ℕ) (f : List (List ℝ))
    (hk : 1 ≤ k) (hkn : k ≤ f.length) (hfull : ∀ j < k, j ∈ raw.clusters) :
    (validateClusteringResult rand1 ctr1 raw k f.length f).1
      = (validateClusteringResult rand2 ctr2 raw k f.length f).1 := by
  unfold validateClusteringResult
  dsimp only
  by_cases hc : raw.centroids.length ≠ k
  · rw [if_pos hc, if_pos hc]
    have hpts : ∀ i ∈ List.range k,
        0 < ((f.enum.filter (fun p => decide
          ((if raw.clusters.length ≠ f.length
            then (List.range f.length).map (fun i => i % k)
            else raw.clusters)[p.1]? = some i))).map Prod.snd).length := by
      intro i hik
      rw [List.mem_range] at hik
      by_cases hlen : raw.clusters.length ≠ f.length
      · rw [if_pos hlen]
        have hidx : ((List.range f.length).map (fun i => i % k))[i]? = some i := by
          have hif : i < f.length := lt_of_lt_of_le hik hkn
          rw [List.getElem?_map]
          rw [List.getElem?_range hif]
          simp [Nat.mod_eq_of_lt hik]
        have hmem : (i, f.getD i []) ∈ f.enum.filter (fun p => decide
            (((List.range f.length).map (fun i => i % k))[p.1]? = some i)) := by
          rw [List.mem_filter]
          constructor
          · rw [List.mk_mem_enum_iff_getElem?]
            have hif : i < f.length := lt_of_lt_of_le hik hkn
            rw [List.getD_eq_getElem?_getD, List.getElem?_eq_getElem hif]
            rfl
          · simp only [hidx, decide_eq_true_eq]
        have : (f.getD i []) ∈ (f.enum.filter (fun p => decide
            (((List.range f.length).map (fun i => i % k))[p.1]? = some i))).map Prod.snd := by
          rw [List.mem_map]
          exact ⟨(i, f.getD i []), hmem, rfl⟩
        exact List.length_pos.mpr (List.ne_nil_of_mem this)
      · rw [if_neg hlen]
        have hlen2 : raw.clusters.length = f.length := Decidable.not_not.mp hlen
        obtain ⟨idx, hidx, hgidx⟩ := List.mem_iff_getElem.mp (hfull i hik)
        have hmem : (idx, f.getD idx []) ∈ f.enum.filter (fun p => decide
            (raw.clusters[p.1]? = some i)) := by
          rw [List.mem_filter]
          constructor
          · rw [List.mk_mem_enum_iff_getElem?]
            have hif : idx < f.length := hlen2 ▸ hidx
            rw [List.getD_eq_getElem?_getD, List.getElem?_eq_getElem hif]
            rfl
          · rw [List.getElem?_eq_getElem hidx]
            simp [hgidx]
        have : (f.getD idx []) ∈ (f.enum.filter (fun p => decide
            (raw.clusters[p.1]? = some i))).map Prod.snd := by
          rw [List.mem_map]
          exact ⟨(idx, f.getD idx []), hmem, rfl⟩
        exact List.length_pos.mpr (List.ne_nil_of_mem this)
    unfold rebuildCentroids
    rw [rebuild_fst_rand_independent rand1 rand2 _ _ f (List.range k) [] ctr1 ctr2 hpts]
  · rw [if_neg hc, if_neg hc]

/-- Claim C9, corrected.  The K-Means attempts themselves use only the
explicit per-attempt seed schedule `42 + 17·attempt`, and the whole of
`performKMeansClustering` is independent of the ambient `Math.random`
stream — its repair fallback is unreachable for accepted results — so
repeated `cluster` calls on the same inputs agree.  (The elbow sweep is
the exception; see the counterexample.) -/
theorem performKMeansClustering_rand_independent (lib : KMeansLib)
    (parseNum : String → Option ℝ) (data : List Row) (cols : List String)
    (k : ℕ) (rand1 rand2 : ℕ → ℝ) (ctr1 ctr2 : ℕ) :
    performKMeansClustering lib rand1 ctr1 parseNum data cols k
      = performKMeansClustering lib rand2 ctr2 parseNum data cols k := by
  unfold performKMeansClustering
  by_cases h1 : data.length = 0
  · rw [if_pos h1, if_pos h1]
  rw [if_neg h1, if_neg h1]
  by_cases h2 : cols.length = 0
  · rw [if_pos h2, if_pos h2]
  rw [if_neg h2, if_neg h2]
  by_cases h3 : k < 1 ∨ data.length < k
  · rw [if_pos h3, if_pos h3]
  rw [if_neg h3, if_neg h3]
  dsimp only
  by_cases h4 : (extractFeatures parseNum data cols).length = 0
  · rw [if_pos h4, if_pos h4]
  rw [if_neg h4, if_neg h4]
  by_cases h5 : (extractFeatures parseNum data cols).length < k
  · rw [if_pos h5, if_pos h5]
  rw [if_neg h5, if_neg h5]
  cases hretry : runKMeansWithRetry lib (extractFeatures parseNum data cols) k 10 with
  | none => rfl
  | some raw =>
      dsimp only
      obtain ⟨hfullraw, _, _⟩ :=
        (runKMeansWithRetry_rejects_empty_keeps_min_wcss lib
          (extractFeatures parseNum data cols) k 10).2 raw hretry
      have hk1 : 1 ≤ k := by omega
      have hkn : k ≤ (extractFeatures parseNum data cols).length := by omega
      rw [validate_fst_rand_independent rand1 rand2 ctr1 ctr2 raw k
        (extractFeatures parseNum data cols) hk1 hkn hfullraw]

theorem insertAsc_length (a : ℕ) : ∀ l : List ℕ,
    (insertAsc a l).length = l.length + 1 := by
  intro l
  induction l with
  | nil => rfl
  | cons b t ih =>
      unfold insertAsc
      by_cases h : a ≤ b
      · rw [if_pos h]
        rfl
      · rw [if_neg h]
        rw [List.length_cons, ih, List.length_cons]

theorem sortAsc_length : ∀ l : List ℕ, (sortAsc l).length = l.length := by
  intro l
  induction l with
  | nil => rfl
  | cons a t ih =>
      unfold sortAsc
      rw [insertAsc_length, ih, List.length_cons]

theorem insertAsc_sorted (a : ℕ) : ∀ l : List ℕ,
    List.Sorted (· ≤ ·) l → List.Sorted (· ≤ ·) (insertAsc a l) := by
  intro l
  induction l with
  | nil => intro _; simp [insertAsc]
  | cons b t ih =>
      intro hs
      unfold insertAsc
      rw [List.sorted_cons] at hs
      by_cases h : a ≤ b
      · rw [if_pos h]
        rw [List.sorted_cons]
        constructor
        · intro c hc
          rcases List.mem_cons.mp hc with hc | hc
          · exact hc ▸ h
          · exact le_trans h (hs.1 c hc)
        · rw [List.sorted_cons]
          exact hs
      · rw [if_neg h]
        rw [List.sorted_cons]
        constructor
        · intro c hc
          have hmem : c = a ∨ c ∈ t := by
            have : ∀ t2 : List ℕ, c ∈ insertAsc a t2 → c = a ∨ c ∈ t2 := by
              intro t2
              induction t2 with
              | nil =>
                  intro hc2
                  simp [insertAsc] at hc2
                  exact Or.inl hc2
              | cons x y ih2 =>
                  intro hc2
                  unfold insertAsc at hc2
                  by_cases hx : a ≤ x
                  · rw [if_pos hx] at hc2
                    rcases List.mem_cons.mp hc2 with h2 | h2
                    · exact Or.inl h2
                    · exact Or.inr h2
                  · rw [if_neg hx] at hc2
                    rcases List.mem_cons.mp hc2 with h2 | h2
                    · exact Or.inr (h2 ▸ List.mem_cons_self x y)
                    · rcases ih2 h2 with h3 | h3
                      · exact Or.inl h3
                      · exact Or.inr (List.mem_cons_of_mem x h3)
            exact this t hc
          rcases hmem with rfl | hc2
          · exact le_of_not_le h
          · exact hs.1 c hc2
        · exact ih hs.2

theorem sortAsc_sorted : ∀ l : List ℕ, List.Sorted (· ≤ ·) (sortAsc l) := by
  intro l
  induction l with
  | nil => simp [sortAsc]
  | cons a t ih =>
      unfold sortAsc
      exact insertAsc_sorted a _ ih

theorem getD_append_lt (l t : List ℝ) (i : ℕ) (h : i < l.length) :
    (l ++ t).getD i 0 = l.getD i 0 := by
  rw [List.getD_eq_getElem?_getD, List.getD_eq_getElem?_getD,
    List.getElem?_append, if_pos h]

theorem getD_append_len (l : List ℝ) (e : ℝ) (t : List ℝ) :
    (l ++ e :: t).getD l.length 0 = e := by
  rw [List.getD_eq_getElem?_getD, List.getElem?_append_right (le_refl l.length)]
  simp

/-- Every elbow iteration appends exactly one WCSS and one DBI entry. -/
theorem elbowStep_shape (lib : KMeansLib) (rand : ℕ → ℝ) (f : List (List ℝ))
    (st : List ℝ × List ℝ × ℕ) (k : ℕ) :
    ∃ e1 e2 c, elbowStep lib rand f st k = (st.1 ++ [e1], st.2.1 ++ [e2], c) := by
  unfold elbowStep
  cases runKMeansWithRetry lib f k 10 with
  | some raw => exact ⟨_, _, _, rfl⟩
  | none =>
      cases hl : st.1.getLast? with
      | some pw =>
          dsimp only
          by_cases h : 0 < pw
          · rw [if_pos h]
            exact ⟨_, _, _, rfl⟩
          · rw [if_neg h]
            exact ⟨_, _, _, rfl⟩
      | none => exact ⟨_, _, _, rfl⟩

/-- When the runner throws at `k`, the elbow iteration appends exactly the
documented fallback pair. -/
theorem elbowStep_fail_spec (lib : KMeansLib) (rand : ℕ → ℝ) (f : List (List ℝ))
    (st : List ℝ × List ℝ × ℕ) (k : ℕ)
    (hrand : ∀ n, 0 ≤ rand n ∧ rand n < 1)
    (hfail : runKMeansWithRetry lib f k 10 = none) :
    ∃ e1 e2 c, elbowStep lib rand f st k = (st.1 ++ [e1], st.2.1 ++ [e2], c)
      ∧ FallbackSpec f k st.1.getLast? st.2.1.getLast? e1 e2 := by
  unfold elbowStep
  rw [hfail]
  cases hl : st.1.getLast? with
  | none =>
      refine ⟨_, _, _, rfl, ?_, ?_⟩
      · intro pw hpw
        exact absurd hpw (by simp)
      · intro _
        exact ⟨rfl, ⟨rand st.2.2, (hrand _).1, (hrand _).2, rfl⟩⟩
  | some pw =>
      dsimp only
      by_cases h : 0 < pw
      · rw [if_pos h]
        refine ⟨_, _, _, rfl, ?_, ?_⟩
        · intro pw2 hp2 _
          injection hp2 with hp2
          subst hp2
          exact ⟨rand st.2.2, rand (st.2.2 + 1), (hrand _).1, (hrand _).2,
            (hrand _).1, (hrand _).2, rfl, rfl⟩
        · rintro (hcon | ⟨pw2, hp2, hnp⟩)
          · exact Option.noConfusion hcon
          · injection hp2 with hp2
            exact absurd (hp2 ▸ h) hnp
      · rw [if_neg h]
        refine ⟨_, _, _, rfl, ?_, ?_⟩
        · intro pw2 hp2 hpos
          injection hp2 with hp2
          exact absurd (hp2 ▸ hpos) h
        · intro _
          exact ⟨rfl, ⟨rand st.2.2, (hrand _).1, (hrand _).2, rfl⟩⟩

/-- Fold invariant of the elbow per-k loop: one entry pair per processed
k, earlier entries untouched, and at every k where the runner throws the
appended pair satisfies the fallback policy relative to the immediately
preceding entries. -/
theorem elbowGo_spec (lib : KMeansLib) (rand : ℕ → ℝ) (f : List (List ℝ))
    (hrand : ∀ n, 0 ≤ rand n ∧ rand n < 1) :
    ∀ (ks : List ℕ) (st : List ℝ × List ℝ × ℕ),
      ((ks.foldl (elbowStep lib rand f) st).1.length = st.1.length + ks.length)
      ∧ ((ks.foldl (elbowStep lib rand f) st).2.1.length = st.2.1.length + ks.length)
      ∧ (∃ t1 t2, (ks.foldl (elbowStep lib rand f) st).1 = st.1 ++ t1
          ∧ (ks.foldl (elbowStep lib rand f) st).2.1 = st.2.1 ++ t2)
      ∧ ∀ j, j < ks.length →
          runKMeansWithRetry lib f (ks.getD j 0) 10 = none →
          FallbackSpec f (ks.getD j 0)
            (if j = 0 then st.1.getLast?
              else some ((ks.foldl (elbowStep lib rand f) st).1.getD
                (st.1.length + j - 1) 0))
            (if j = 0 then st.2.1.getLast?
              else some ((ks.foldl (elbowStep lib rand f) st).2.1.getD
                (st.2.1.length + j - 1) 0))
            ((ks.foldl (elbowStep lib rand f) st).1.getD (st.1.length + j) 0)
            ((ks.foldl (elbowStep lib rand f) st).2.1.getD (st.2.1.length + j) 0) := by
  intro ks
  induction ks with
  | nil =>
      intro st
      refine ⟨by simp, by simp, ⟨[], [], by simp, by simp⟩, ?_⟩
      intro j hj
      simp at hj
  | cons k0 kt ih =>
      intro st
      rw [List.foldl_cons]
      obtain ⟨e1, e2, c, hstep⟩ := elbowStep_shape lib rand f st k0
      rw [hstep]
      obtain ⟨ihl1, ihl2, ⟨t1, t2, hp1, hp2⟩, ihfall⟩ :=
        ih (st.1 ++ [e1], st.2.1 ++ [e2], c)
      dsimp only at ihl1 ihl2 hp1 hp2 ihfall
      have hv1 : (kt.foldl (elbowStep lib rand f)
          (st.1 ++ [e1], st.2.1 ++ [e2], c)).1.getD st.1.length 0 = e1 := by
        rw [hp1, List.append_assoc, List.singleton_append, getD_append_len]
      have hv2 : (kt.foldl (elbowStep lib rand f)
          (st.1 ++ [e1], st.2.1 ++ [e2], c)).2.1.getD st.2.1.length 0 = e2 := by
        rw [hp2, List.append_assoc, List.singleton_append, getD_append_len]
      refine ⟨?_, ?_, ?_, ?_⟩
      · rw [ihl1]
        simp only [List.length_append, List.length_cons, List.length_nil]
        omega
      · rw [ihl2]
        simp only [List.length_append, List.length_cons, List.length_nil]
        omega
      · exact ⟨e1 :: t1, e2 :: t2,
          by rw [hp1, List.append_assoc]; rfl,
          by rw [hp2, List.append_assoc]; rfl⟩
      · intro j hj hfail
        match j with
        | 0 =>
            simp only [List.getD_cons_zero] at hfail ⊢
            obtain ⟨e1', e2', c', hstep', hspec⟩ :=
              elbowStep_fail_spec lib rand f st k0 hrand hfail
            rw [hstep] at hstep'
            have he1 : e1 = e1' := by
              have h2 := congrArg Prod.fst hstep'
              dsimp only at h2
              have h3 := List.append_cancel_left h2
              injection h3
            have he2 : e2 = e2' := by
              have h2 := congrArg Prod.fst (congrArg Prod.snd hstep')
              dsimp only at h2
              have h3 := List.append_cancel_left h2
              injection h3
            simp only [if_pos rfl, Nat.add_zero]
            rw [hv1, hv2, he1, he2]
            exact hspec
        | (jp + 1) =>
            have hjp : jp < kt.length := by
              simp only [List.length_cons] at hj
              omega
            have hfail2 : runKMeansWithRetry lib f (kt.getD jp 0) 10 = none := by
              rw [List.getD_cons_succ] at hfail
              exact hfail
            have hres := ihfall jp hjp hfail2
            have hlen1 : (st.1 ++ [e1]).length = st.1.length + 1 := by simp
            have hlen2 : (st.2.1 ++ [e2]).length = st.2.1.length + 1 := by simp
            rw [hlen1, hlen2] at hres
            have hprev1 : (if jp = 0 then (st.1 ++ [e1]).getLast?
                else some ((kt.foldl (elbowStep lib rand f)
                  (st.1 ++ [e1], st.2.1 ++ [e2], c)).1.getD (st.1.length + 1 + jp - 1) 0))
                = some ((kt.foldl (elbowStep lib rand f)
                  (st.1 ++ [e1], st.2.1 ++ [e2], c)).1.getD (st.1.length + jp) 0) := by
              by_cases hjz : jp = 0
              · subst hjz
                rw [if_pos rfl, List.getLast?_concat, Nat.add_zero, hv1]
              · have hieq : st.1.length + 1 + jp - 1 = st.1.length + jp := by omega
                rw [if_neg hjz, hieq]
            have hprev2 : (if jp = 0 then (st.2.1 ++ [e2]).getLast?
                else some ((kt.foldl (elbowStep lib rand f)
                  (st.1 ++ [e1], st.2.1 ++ [e2], c)).2.1.getD (st.2.1.length + 1 + jp - 1) 0))
                = some ((kt.foldl (elbowStep lib rand f)
                  (st.1 ++ [e1], st.2.1 ++ [e2], c)).2.1.getD (st.2.1.length + jp) 0) := by
              by_cases hjz : jp = 0
              · subst hjz
                rw [if_pos rfl, List.getLast?_concat, Nat.add_zero, hv2]
              · have hieq : st.2.1.length + 1 + jp - 1 = st.2.1.length + jp := by omega
                rw [if_neg hjz, hieq]
            rw [hprev1, hprev2] at hres
            have hidx1 : st.1.length + 1 + jp = st.1.length + (jp + 1) := by omega
            have hidx2 : st.2.1.length + 1 + jp = st.2.1.length + (jp + 1) := by omega
            rw [hidx1, hidx2] at hres
            rw [List.getD_cons_succ]
            rw [if_neg (Nat.succ_ne_zero jp)]
            have hidx3 : st.1.length + (jp + 1) - 1 = st.1.length + jp := by omega
            have hidx4 : st.2.1.length + (jp + 1) - 1 = st.2.1.length + jp := by omega
            rw [hidx3, hidx4]
            exact hres

theorem rand0_bounds : ∀ n : ℕ, 0 ≤ rand0 n ∧ rand0 n < 1 := by
  intro n
  unfold rand0
  norm_num

/-- The guards of the elbow analyzer pass and the loop yields one entry
pair per (sorted) requested k. -/
theorem elbow_returns_with_lengths (lib : KMeansLib) (rand : ℕ → ℝ) (ctr : ℕ)
    (parseNum : String → Option ℝ) (data : List Row) (cols : List String)
    (kValues : List ℕ) (hrand : ∀ n, 0 ≤ rand n ∧ rand n < 1)
    (hd : data.length ≠ 0) (hc : cols.length ≠ 0) (hkv : kValues.length ≠ 0)
    (hf : (extractFeatures parseNum data cols).length ≠ 0) :
    calculateElbowMethodFromExperiments lib rand ctr parseNum data cols kValues
      = some (((sortAsc kValues).foldl
          (elbowStep lib rand (extractFeatures parseNum data cols)) ([], [], ctr)).1,
        ((sortAsc kValues).foldl
          (elbowStep lib rand (extractFeatures parseNum data cols)) ([], [], ctr)).2.1)
      ∧ ((sortAsc kValues).foldl
          (elbowStep lib rand (extractFeatures parseNum data cols)) ([], [], ctr)).1.length
        = kValues.length
      ∧ ((sortAsc kValues).foldl
          (elbowStep lib rand (extractFeatures parseNum data cols)) ([], [], ctr)).2.1.length
        = kValues.length := by
  obtain ⟨hl1, hl2, _, _⟩ := elbowGo_spec lib rand
    (extractFeatures parseNum data cols) hrand (sortAsc kValues) ([], [], ctr)
  refine ⟨?_, ?_, ?_⟩
  · unfold calculateElbowMethodFromExperiments
    rw [if_neg hd, if_neg hc, if_neg hkv]
    dsimp only
    rw [if_neg hf]
  · rw [hl1, sortAsc_length]
    simp
  · rw [hl2, sortAsc_length]
    simp

/-- Claim C4, corrected.  The explicit-kValues elbow analyzer returns one
WCSS and one DBI entry per element of `kValues` — duplicates included —
processed in ascending sorted order; `k = 1` receives no special
closed-form handling: like any other k it goes through the retry runner,
the repair pass and the metric calculators (the DBI entry is then 0 only
because the metric itself returns 0 for a single centroid). -/
theorem elbow_entry_counts_and_k1_via_runner (lib : KMeansLib) (rand : ℕ → ℝ)
    (ctr : ℕ) (parseNum : String → Option ℝ) (data : List Row)
    (cols : List String) (kValues : List ℕ)
    (hrand : ∀ n, 0 ≤ rand n ∧ rand n < 1)
    (hd : data.length ≠ 0) (hc : cols.length ≠ 0) (hkv : kValues.length ≠ 0)
    (hf : (extractFeatures parseNum data cols).length ≠ 0) :
    (∃ w d, calculateElbowMethodFromExperiments lib rand ctr parseNum data cols kValues
        = some (w, d) ∧ w.length = kValues.length ∧ d.length = kValues.length)
    ∧ List.Sorted (· ≤ ·) (sortAsc kValues)
    ∧ ∀ raw, runKMeansWithRetry lib (extractFeatures parseNum data cols) 1 10 = some raw →
        calculateElbowMethodFromExperiments lib rand ctr parseNum data cols [1]
          = some
            ([calculateWCSS (extractFeatures parseNum data cols)
                (validateClusteringResult rand ctr raw 1
                  (extractFeatures parseNum data cols).length
                  (extractFeatures parseNum data cols)).1.clusters
                (validateClusteringResult rand ctr raw 1
                  (extractFeatures parseNum data cols).length
                  (extractFeatures parseNum data cols)).1.centroids],
             [0]) := by
  obtain ⟨heq, hl1, hl2⟩ := elbow_returns_with_lengths lib rand ctr parseNum
    data cols kValues hrand hd hc hkv hf
  refine ⟨⟨_, _, heq, hl1, hl2⟩, sortAsc_sorted kValues, ?_⟩
  intro raw hraw
  unfold calculateElbowMethodFromExperiments
  rw [if_neg hd, if_neg hc]
  rw [if_neg (by norm_num : ¬([1] : List ℕ).length = 0)]
  dsimp only
  rw [if_neg hf]
  have hs : sortAsc [1] = [1] := rfl
  rw [hs, List.foldl_cons, List.foldl_nil]
  unfold elbowStep
  rw [hraw]
  dsimp only
  have hdbi : calculateDaviesBouldinIndex (extractFeatures parseNum data cols)
      (validateClusteringResult rand ctr raw 1
        (extractFeatures parseNum data cols).length
        (extractFeatures parseNum data cols)).1.clusters
      (validateClusteringResult rand ctr raw 1
        (extractFeatures parseNum data cols).length
        (extractFeatures parseNum data cols)).1.centroids = 0 := by
    apply dbi_zero_of_few_centroids
    rw [validate_centroids_length]
  rw [hdbi]
  rw [List.nil_append, List.nil_append]

/-- Counterexample to claim C4 as stated: requesting `kValues = [2, 2]`
produces two WCSS entries, not one per sorted **deduplicated** k. -/
theorem elbow_no_dedup_counterexample :
    (calculateElbowMethodFromExperiments libNone rand0 0 parse0 witData ["x"] [2, 2]).map
        (fun p => p.1.length) = some 2
    ∧ (sortAsc [2, 2]).dedup.length = 1 := by
  constructor
  · obtain ⟨heq, hl1, _⟩ := elbow_returns_with_lengths libNone rand0 0 parse0
      witData ["x"] [2, 2] rand0_bounds
      (by norm_num [witData]) (by norm_num)
      (by norm_num)
      (by rw [extractFeatures_length]; norm_num [witData])
    rw [heq]
    simp only [Option.map_some']
    rw [hl1]
    rfl
  · rfl

/-- Counterexample to claim C9 as stated: the per-k fallback of the elbow
sweep reads the module-level `Math.random`, so the same call observed
under two different random streams returns different results — repeated
runs on identical inputs are not reproducible. -/
theorem elbow_rand_dependent_counterexample :
    calculateElbowMethodFromExperiments libNone rand0 0 parse0 witData ["x"] [2]
      ≠ calculateElbowMethodFromExperiments libNone randHalf 0 parse0 witData ["x"] [2] := by
  have heval : ∀ r : ℕ → ℝ,
      calculateElbowMethodFromExperiments libNone r 0 parse0 witData ["x"] [2]
        = some ([totalVarianceOf (extractFeatures parse0 witData ["x"]) / ((2 : ℕ) : ℝ)],
            [0.5 + r 0 * 1.5]) := by
    intro r
    unfold calculateElbowMethodFromExperiments
    rw [if_neg (by norm_num [witData] : ¬witData.length = 0)]
    rw [if_neg (by norm_num : ¬(["x"] : List String).length = 0)]
    rw [if_neg (by norm_num : ¬([2] : List ℕ).length = 0)]
    dsimp only
    rw [if_neg (by rw [extractFeatures_length]; norm_num [witData])]
    have hs : sortAsc [2] = [2] := rfl
    rw [hs, List.foldl_cons, List.foldl_nil]
    unfold elbowStep
    have hretry : runKMeansWithRetry libNone (extractFeatures parse0 witData ["x"]) 2 10
        = none := rfl
    rw [hretry]
    have hlast : (([] : List ℝ), ([] : List ℝ), 0).1.getLast? = none := rfl
    rw [hlast]
    dsimp only
    rw [List.nil_append, List.nil_append]
  rw [heval rand0, heval randHalf]
  intro h
  simp only [Option.some.injEq, Prod.mk.injEq, List.cons.injEq] at h
  have h2 := h.2.1
  unfold rand0 randHalf at h2
  norm_num at h2

/-- Claim C5: a per-k failure never aborts the sweep — one WCSS and one
DBI entry are still appended for the failing k (shrunk/rescaled previous
values with bounded random factors, or the total-variance estimate when
no positive previous WCSS exists), and the remaining k values are still
processed. -/
theorem elbow_per_k_failure_appends_fallback (lib : KMeansLib) (rand : ℕ → ℝ)
    (ctr : ℕ) (parseNum : String → Option ℝ) (data : List Row)
    (cols : List String) (kValues : List ℕ)
    (hrand : ∀ n, 0 ≤ rand n ∧ rand n < 1)
    (hd : data.length ≠ 0) (hc : cols.length ≠ 0) (hkv : kValues.length ≠ 0)
    (hf : (extractFeatures parseNum data cols).length ≠ 0) :
    ∃ w d, calculateElbowMethodFromExperiments lib rand ctr parseNum data cols kValues
        = some (w, d)
      ∧ w.length = kValues.length ∧ d.length = kValues.length
      ∧ ∀ j, j < (sortAsc kValues).length →
          runKMeansWithRetry lib (extractFeatures parseNum data cols)
            ((sortAsc kValues).getD j 0) 10 = none →
          FallbackSpec (extractFeatures parseNum data cols)
            ((sortAsc kValues).getD j 0)
            (if j = 0 then none else some (w.getD (j - 1) 0))
            (if j = 0 then none else some (d.getD (j - 1) 0))
            (w.getD j 0) (d.getD j 0) := by
  obtain ⟨heq, hl1, hl2⟩ := elbow_returns_with_lengths lib rand ctr parseNum
    data cols kValues hrand hd hc hkv hf
  obtain ⟨_, _, _, hfall⟩ := elbowGo_spec lib rand
    (extractFeatures parseNum data cols) hrand (sortAsc kValues) ([], [], ctr)
  refine ⟨_, _, heq, hl1, hl2, ?_⟩
  intro j hj hfail
  have := hfall j hj hfail
  simp only [List.length_nil, Nat.zero_add] at this
  exact this

theorem retryInv_nil (lib : KMeansLib) (features : List (List ℝ)) (k : ℕ) :
    RetryInv lib features k [] none := by
  constructor
  · constructor
    · intro _ a ha
      exact absurd ha (List.not_mem_nil a)
    · intro _
      rfl
  · intro w r h
    exact Option.noConfusion h

/-- For a seed-insensitive library whose (unique) result is accepted, the
retry loop returns exactly that result. -/
theorem retry_constant_lib (lib : KMeansLib) (f : List (List ℝ)) (k m : ℕ)
    (r : RawKMeans) (hm : 0 < m)
    (hlib : ∀ s i, lib f k s i = some r)
    (hfull : ∀ j < k, j ∈ r.clusters) :
    runKMeansWithRetry lib f k m = some r := by
  obtain ⟨hnone, hsome⟩ := retry_fold_spec lib f k (List.range m) [] none
    (retryInv_nil lib f k)
  rw [List.nil_append] at hnone hsome
  unfold runKMeansWithRetry
  cases hst : (List.range m).foldl (retryStep lib f k) none with
  | none =>
      exfalso
      have hall := hnone.mp hst
      exact hall 0 (List.mem_range.mpr hm) r ⟨hlib _ _, hfull⟩
  | some b =>
      obtain ⟨_, ⟨a, _, hacc⟩, _⟩ := hsome b.1 b.2 (by rw [hst])
      have hb : b.2 = r := by
        have h2 := hacc.1
        rw [hlib] at h2
        injection h2 with h2
        exact h2.symm
      rw [Option.map_some', hb]

theorem libRoundRobin_inrange : LibInRange libRoundRobin := by
  intro f k s m r heq
  unfold libRoundRobin at heq
  by_cases hk : k = 0
  · rw [if_pos hk] at heq
    exact Option.noConfusion heq
  · rw [if_neg hk] at heq
    injection heq with heq
    subst heq
    intro c hc
    simp only [List.mem_map] at hc
    obtain ⟨i, _, rfl⟩ := hc
    exact Nat.mod_lt i (Nat.pos_of_ne_zero hk)

theorem witRetry_eval :
    runKMeansWithRetry libRoundRobin (extractFeatures parse0 witData ["x"]) 1 10
      = some (RawKMeans.mk [0] [[(0 : ℝ)]]) := by
  refine retry_constant_lib libRoundRobin _ 1 10 _ (by norm_num) (fun s i => rfl) ?_
  intro j hj
  interval_cases j
  exact List.mem_singleton_self 0

theorem witPerform_eval :
    performKMeansClustering libRoundRobin rand0 0 parse0 witData ["x"] 1
      = some witRes := by
  unfold performKMeansClustering
  rw [if_neg (by norm_num [witData] : ¬witData.length = 0)]
  rw [if_neg (by norm_num : ¬(["x"] : List String).length = 0)]
  rw [if_neg (by norm_num [witData] : ¬((1 : ℕ) < 1 ∨ witData.length < 1))]
  dsimp only
  rw [if_neg (by rw [extractFeatures_length]; norm_num [witData])]
  rw [if_neg (by rw [extractFeatures_length]; norm_num [witData])]
  rw [witRetry_eval]
  rfl

/-- Witness for claim C1 at a one-row, one-column dataset with `k = 1`. -/
theorem performKMeansClustering_structural_witness :
    LibInRange libRoundRobin
    ∧ witRes.clusters.length = witData.length
    ∧ witRes.centroids.length = 1
    ∧ witRes.clusterSizes.sum = witData.length
    ∧ (1 : ℕ) ≠ 0 := by
  have h := performKMeansClustering_structurally_valid libRoundRobin rand0 0 parse0
    witData ["x"] 1 witRes libRoundRobin_inrange witPerform_eval
  exact ⟨libRoundRobin_inrange, h.1, h.2.1, h.2.2.1,
    h.2.2.2 1 (by decide)⟩

/-- Witness for the corrected claim C4. -/
theorem elbow_entry_counts_witness :
    witData.length ≠ 0
    ∧ ∃ w d, calculateElbowMethodFromExperiments libNone rand0 0 parse0 witData
        ["x"] [2, 3] = some (w, d) ∧ w.length = 2 ∧ d.length = 2 := by
  refine ⟨by norm_num [witData], ?_⟩
  obtain ⟨⟨w, d, heq, hl1, hl2⟩, _, _⟩ := elbow_entry_counts_and_k1_via_runner libNone
    rand0 0 parse0 witData ["x"] [2, 3] rand0_bounds (by norm_num [witData])
    (by norm_num) (by norm_num)
    (by rw [extractFeatures_length]; norm_num [witData])
  exact ⟨w, d, heq, hl1, hl2⟩

/-- Witness for claim C5. -/
theorem elbow_fallback_witness :
    witData.length ≠ 0
    ∧ ∃ w d, calculateElbowMethodFromExperiments libNone rand0 0 parse0 witData
        ["x"] [2] = some (w, d) ∧ w.length = 1 ∧ d.length = 1 := by
  refine ⟨by norm_num [witData], ?_⟩
  obtain ⟨w, d, heq, hl1, hl2, _⟩ := elbow_per_k_failure_appends_fallback libNone
    rand0 0 parse0 witData ["x"] [2] rand0_bounds (by norm_num [witData])
    (by norm_num) (by norm_num)
    (by rw [extractFeatures_length]; norm_num [witData])
  exact ⟨w, d, heq, hl1, hl2⟩

theorem insertStr_mem (a : String) : ∀ (l : List String) (s : String),
    s ∈ insertStr a l ↔ s = a ∨ s ∈ l := by
  intro l
  induction l with
  | nil => intro s; simp [insertStr]
  | cons b t ih =>
      intro s
      unfold insertStr
      by_cases h : a ≤ b
      · rw [if_pos h]
        simp
      · rw [if_neg h]
        simp only [List.mem_cons, ih]
        tauto

theorem insertStr_sorted (a : String) : ∀ l : List String,
    List.Sorted (· ≤ ·) l → List.Sorted (· ≤ ·) (insertStr a l) := by
  intro l
  induction l with
  | nil => intro _; simp [insertStr]
  | cons b t ih =>
      intro hs
      rw [List.sorted_cons] at hs
      unfold insertStr
      by_cases h : a ≤ b
      · rw [if_pos h, List.sorted_cons]
        constructor
        · intro c hc
          rcases List.mem_cons.mp hc with hc | hc
          · exact hc ▸ h
          · exact le_trans h (hs.1 c hc)
        · rw [List.sorted_cons]
          exact hs
      · rw [if_neg h, List.sorted_cons]
        constructor
        · intro c hc
          rcases (insertStr_mem a t c).mp hc with rfl | hc
          · exact le_of_not_le h
          · exact hs.1 c hc
        · exact ih hs.2

theorem insertStr_nodup (a : String) : ∀ l : List String,
    a ∉ l → l.Nodup → (insertStr a l).Nodup := by
  intro l
  induction l with
  | nil => intro _ _; simp [insertStr]
  | cons b t ih =>
      intro hna hnd
      rw [List.nodup_cons] at hnd
      unfold insertStr
      by_cases h : a ≤ b
      · rw [if_pos h, List.nodup_cons, List.nodup_cons]
        exact ⟨hna, hnd⟩
      · rw [if_neg h, List.nodup_cons]
        constructor
        · intro hb
          rcases (insertStr_mem a t b).mp hb with hb | hb
          · exact h (le_of_eq hb.symm)
          · exact hnd.1 hb
        · exact ih (fun ha => hna (List.mem_cons_of_mem b ha)) hnd.2

theorem sortStr_mem : ∀ (l : List String) (s : String),
    s ∈ sortStr l ↔ s ∈ l := by
  intro l
  induction l with
  | nil => intro s; rfl
  | cons a t ih =>
      intro s
      unfold sortStr
      rw [insertStr_mem, ih, List.mem_cons]

theorem sortStr_sorted : ∀ l : List String, List.Sorted (· ≤ ·) (sortStr l) := by
  intro l
  induction l with
  | nil => simp [sortStr]
  | cons a t ih =>
      unfold sortStr
      exact insertStr_sorted a _ ih

theorem sortStr_nodup : ∀ l : List String, l.Nodup → (sortStr l).Nodup := by
  intro l
  induction l with
  | nil => intro _; simp [sortStr]
  | cons a t ih =>
      intro hnd
      rw [List.nodup_cons] at hnd
      unfold sortStr
      exact insertStr_nodup a _ (fun h => hnd.1 ((sortStr_mem t a).mp h)) (ih hnd.2)

theorem uniqueSorted_mem (numStr : ℝ → String) (data : List Row) (col : String)
    (s : String) :
    s ∈ uniqueSorted numStr data col ↔ s ∈ colKeys numStr data col := by
  unfold uniqueSorted
  rw [sortStr_mem, List.mem_dedup]

theorem uniqueSorted_sorted (numStr : ℝ → String) (data : List Row) (col : String) :
    List.Sorted (· ≤ ·) (uniqueSorted numStr data col) :=
  sortStr_sorted _

theorem uniqueSorted_nodup (numStr : ℝ → String) (data : List Row) (col : String) :
    (uniqueSorted numStr data col).Nodup :=
  sortStr_nodup _ (List.nodup_dedup _)

/-- A fold of per-column row functions, each of which touches only its
own key and computes the new cell from the old one, behaves pointwise as
a single application at each listed key. -/
theorem foldl_local_rowfns (fns : String → Row → Row)
    (valfn : String → Option Value → Option Value)
    (hloc : ∀ c r x, x ≠ c → fns c r x = r x)
    (hval : ∀ c r, fns c r c = valfn c (r c)) :
    ∀ (cols : List String) (r : Row) (col : String),
      (col ∉ cols → (cols.foldl (fun r c => fns c r) r) col = r col)
      ∧ (cols.Nodup → col ∈ cols →
          (cols.foldl (fun r c => fns c r) r) col = valfn col (r col)) := by
  intro cols
  induction cols with
  | nil =>
      intro r col
      exact ⟨fun _ => rfl, fun _ h => absurd h (List.not_mem_nil col)⟩
  | cons c t ih =>
      intro r col
      rw [List.foldl_cons]
      constructor
      · intro hns
        have hnc : col ≠ c := fun h => hns (h ▸ List.mem_cons_self c t)
        have hnt : col ∉ t := fun h => hns (List.mem_cons_of_mem c h)
        rw [(ih (fns c r) col).1 hnt]
        exact hloc c r col hnc
      · intro hnd hmem
        rw [List.nodup_cons] at hnd
        by_cases hct : col ∈ t
        · rw [(ih (fns c r) col).2 hnd.2 hct]
          have hnc : col ≠ c := fun h => hnd.1 (h ▸ hct)
          rw [hloc c r col hnc]
        · have hcc : col = c := by
            rcases List.mem_cons.mp hmem with h | h
            · exact h
            · exact absurd h hct
          subst hcc
          rw [(ih (fns col r) col).1 hnd.1]
          exact hval col r

theorem getD_map_row (f : Row → Row) (data : List Row) (i : ℕ)
    (hi : i < data.length) :
    (data.map f).getD i emptyRow = f (data.getD i emptyRow) := by
  rw [List.getD_eq_getElem?_getD, List.getElem?_map, List.getElem?_eq_getElem hi]
  rw [List.getD_eq_getElem?_getD, List.getElem?_eq_getElem hi]
  rfl

theorem getD_map_val (g : Row → ℝ) (data : List Row) (i : ℕ)
    (hi : i < data.length) :
    (data.map g).getD i 0 = g (data.getD i emptyRow) := by
  rw [List.getD_eq_getElem?_getD, List.getElem?_map, List.getElem?_eq_getElem hi]
  rw [List.getD_eq_getElem?_getD, List.getElem?_eq_getElem hi]
  rfl

theorem labelEncoding_rows_eq (numStr : ℝ → String) (data : List Row) :
    ∀ (cols : List String) (rows : List Row)
      (m : String → Option (List (String × ℕ))),
      (cols.foldl (labelStep numStr data) (rows, m)).1
        = rows.map (fun r => cols.foldl
            (fun r c => labelApply numStr data c r) r) := by
  intro cols
  induction cols with
  | nil =>
      intro rows m
      simp
  | cons c t ih =>
      intro rows m
      have hstep : labelStep numStr data (rows, m) c
          = (rows.map (labelApply numStr data c),
             fun x => if x = c then some (labelColumnMap numStr data c) else m x) := rfl
      rw [List.foldl_cons, hstep, ih, List.map_map]
      simp only [List.foldl_cons]
      rfl

theorem labelEncoding_maps_at (numStr : ℝ → String) (data : List Row) :
    ∀ (cols : List String) (rows : List Row)
      (m : String → Option (List (String × ℕ))) (col : String),
      ((col ∈ cols → (cols.foldl (labelStep numStr data) (rows, m)).2 col
          = some (labelColumnMap numStr data col))
       ∧ (col ∉ cols → (cols.foldl (labelStep numStr data) (rows, m)).2 col = m col)) := by
  intro cols
  induction cols with
  | nil =>
      intro rows m col
      exact ⟨fun h => absurd h (List.not_mem_nil col), fun _ => rfl⟩
  | cons c t ih =>
      intro rows m col
      have hstep : labelStep numStr data (rows, m) c
          = (rows.map (labelApply numStr data c),
             fun x => if x = c then some (labelColumnMap numStr data c) else m x) := rfl
      rw [List.foldl_cons, hstep]
      constructor
      · intro hmem
        by_cases hct : col ∈ t
        · exact (ih _ _ col).1 hct
        · have hcc : col = c := by
            rcases List.mem_cons.mp hmem with h | h
            · exact h
            · exact absurd h hct
          rw [(ih _ _ col).2 hct, if_pos hcc]
          rw [hcc]
      · intro hns
        have hnc : col ≠ c := fun h => hns (h ▸ List.mem_cons_self c t)
        have hnt : col ∉ t := fun h => hns (List.mem_cons_of_mem c h)
        rw [(ih _ _ col).2 hnt, if_neg hnc]

theorem minMax_rows_eq (parseNum : String → Option ℝ) (data : List Row) :
    ∀ (cols : List String) (rows : List Row) (m : String → Option ColumnStats),
      (cols.foldl (minMaxStep parseNum data) (rows, m)).1
        = rows.map (fun r => cols.foldl (fun r c => mmApply parseNum data c r) r) := by
  intro cols
  induction cols with
  | nil =>
      intro rows m
      simp
  | cons c t ih =>
      intro rows m
      have hstep : minMaxStep parseNum data (rows, m) c
          = (rows.map (mmApply parseNum data c),
             fun x => if x = c then some (mmStats parseNum data c) else m x) := rfl
      rw [List.foldl_cons, hstep, ih, List.map_map]
      simp only [List.foldl_cons]
      rfl

theorem zScore_rows_eq (parseNum : String → Option ℝ) (data : List Row) :
    ∀ (cols : List String) (rows : List Row) (m : String → Option ColumnStats),
      (cols.foldl (zStep parseNum data) (rows, m)).1
        = rows.map (fun r => cols.foldl (fun r c => zApply parseNum data c r) r) := by
  intro cols
  induction cols with
  | nil =>
      intro rows m
      simp
  | cons c t ih =>
      intro rows m
      have hstep : zStep parseNum data (rows, m) c
          = (rows.map (zApply parseNum data c),
             fun x => if x = c then some (mmStats parseNum data c) else m x) := rfl
      rw [List.foldl_cons, hstep, ih, List.map_map]
      simp only [List.foldl_cons]
      rfl

theorem oneHot_rows_eq (numStr : ℝ → String) (data : List Row) :
    ∀ (cols : List String) (rows : List Row)
      (m : String → Option (List (String × String))) (nc : List String),
      (cols.foldl (ohStep numStr data) (rows, m, nc)).1
        = rows.map (fun r => cols.foldl
            (fun r c => ohSetApply numStr data c (ohInitApply numStr data c r)) r) := by
  intro cols
  induction cols with
  | nil =>
      intro rows m nc
      simp
  | cons c t ih =>
      intro rows m nc
      have hstep : ohStep numStr data (rows, m, nc) c
          = ((rows.map (ohInitApply numStr data c)).map (ohSetApply numStr data c),
             (fun x => if x = c then some (oneHotPairs numStr data c) else m x),
             nc ++ (uniqueSorted numStr data c).map (oneHotName c)) := rfl
      rw [List.foldl_cons, hstep, ih, List.map_map, List.map_map]
      simp only [List.foldl_cons]
      rfl

theorem oneHot_newCols_eq (numStr : ℝ → String) (data : List Row) :
    ∀ (cols : List String) (rows : List Row)
      (m : String → Option (List (String × String))) (nc : List String),
      (cols.foldl (ohStep numStr data) (rows, m, nc)).2.2
        = nc ++ (cols.map (fun c => genNames numStr data c)).flatten := by
  intro cols
  induction cols with
  | nil =>
      intro rows m nc
      simp
  | cons c t ih =>
      intro rows m nc
      have hstep : ohStep numStr data (rows, m, nc) c
          = ((rows.map (ohInitApply numStr data c)).map (ohSetApply numStr data c),
             (fun x => if x = c then some (oneHotPairs numStr data c) else m x),
             nc ++ (uniqueSorted numStr data c).map (oneHotName c)) := rfl
      rw [List.foldl_cons, hstep, ih]
      simp only [List.map_cons, List.flatten_cons, genNames]
      rw [List.append_assoc]

theorem lookupOr0_cons_of_pos (e : String × ℕ) (m : List (String × ℕ)) (s : String)
    (h : e.1 = s) : lookupOr0 (e :: m) s = e.2 := by
  unfold lookupOr0
  rw [List.find?_cons_of_pos]
  simp [h]

theorem lookupOr0_cons_of_neg (e : String × ℕ) (m : List (String × ℕ)) (s : String)
    (h : e.1 ≠ s) : lookupOr0 (e :: m) s = lookupOr0 m s := by
  unfold lookupOr0
  rw [List.find?_cons_of_neg]
  simp [h]

theorem lookupOr0_not_mem : ∀ (m : List (String × ℕ)) (s : String),
    (∀ e ∈ m, e.1 ≠ s) → lookupOr0 m s = 0 := by
  intro m
  induction m with
  | nil => intro s _; rfl
  | cons e t ih =>
      intro s h
      rw [lookupOr0_cons_of_neg e t s (h e (List.mem_cons_self e t))]
      exact ih s (fun e2 he2 => h e2 (List.mem_cons_of_mem e he2))

theorem lookupOr0_enumFrom : ∀ (l : List String) (n : ℕ) (s : String), s ∈ l →
    lookupOr0 ((l.enumFrom n).map (fun p => (p.2, p.1))) s = n + l.indexOf s := by
  intro l
  induction l with
  | nil => intro n s h; exact absurd h (List.not_mem_nil s)
  | cons x t ih =>
      intro n s hmem
      have henum : (x :: t).enumFrom n = (n, x) :: t.enumFrom (n + 1) := rfl
      rw [henum, List.map_cons]
      by_cases hx : x = s
      · rw [lookupOr0_cons_of_pos _ _ _ hx]
        subst hx
        rw [List.indexOf_cons_self]
        simp
      · rw [lookupOr0_cons_of_neg _ _ _ hx]
        have hst : s ∈ t := by
          rcases List.mem_cons.mp hmem with h | h
          · exact absurd h.symm hx
          · exact h
        rw [ih (n + 1) s hst, List.indexOf_cons_ne _ hx]
        omega

theorem mem_enumFrom_snd : ∀ (l : List String) (n : ℕ) (p : ℕ × String),
    p ∈ l.enumFrom n → p.2 ∈ l := by
  intro l
  induction l with
  | nil => intro n p h; exact absurd h (List.not_mem_nil p)
  | cons x t ih =>
      intro n p hp
      have henum : (x :: t).enumFrom n = (n, x) :: t.enumFrom (n + 1) := rfl
      rw [henum] at hp
      rcases List.mem_cons.mp hp with h | h
      · rw [h]
        exact List.mem_cons_self x t
      · exact List.mem_cons_of_mem x (ih (n + 1) p h)

theorem labelColumnMap_lookup (numStr : ℝ → String) (data : List Row)
    (col : String) (s : String) (hs : s ∈ uniqueSorted numStr data col) :
    lookupOr0 (labelColumnMap numStr data col) s
      = (uniqueSorted numStr data col).indexOf s := by
  unfold labelColumnMap
  have henum : (uniqueSorted numStr data col).enum
      = (uniqueSorted numStr data col).enumFrom 0 := rfl
  rw [henum, lookupOr0_enumFrom _ 0 s hs]
  omega

theorem labelColumnMap_lookup_absent (numStr : ℝ → String) (data : List Row)
    (col : String) (s : String) (hs : s ∉ uniqueSorted numStr data col) :
    lookupOr0 (labelColumnMap numStr data col) s = 0 := by
  apply lookupOr0_not_mem
  intro e he heq
  apply hs
  unfold labelColumnMap at he
  rcases List.mem_map.mp he with ⟨p, hp, hpe⟩
  have h2 : p.2 ∈ (uniqueSorted numStr data col) := by
    have henum : (uniqueSorted numStr data col).enum
        = (uniqueSorted numStr data col).enumFrom 0 := rfl
    rw [henum] at hp
    exact mem_enumFrom_snd _ 0 p hp
  have : e.1 = p.2 := by rw [← hpe]
  rw [← heq, this]
  exact h2

theorem uniqueSorted_example (numStr : ℝ → String) :
    uniqueSorted numStr exLabelData "cat" = ["A", "B", "C"] := by
  have h1 : colKeys numStr exLabelData "cat" = ["A", "A", "B", "C", "A"] := rfl
  have h2 : (["A", "A", "B", "C", "A"] : List String).dedup = ["B", "C", "A"] := by decide
  have hCA : ¬ ("C" : String) ≤ "A" := by rw [String.le_iff_toList_le]; decide
  have hBA : ¬ ("B" : String) ≤ "A" := by rw [String.le_iff_toList_le]; decide
  have hBC : ("B" : String) ≤ "C" := by rw [String.le_iff_toList_le]; decide
  unfold uniqueSorted
  rw [h1, h2]
  simp [sortStr, insertStr, hCA, hBA, hBC]

theorem labelColumnMap_example (numStr : ℝ → String) :
    labelColumnMap numStr exLabelData "cat" = [("A", 0), ("B", 1), ("C", 2)] := by
  unfold labelColumnMap
  rw [uniqueSorted_example]
  rfl

/-- C6: for every dataset and duplicate-free categorical column list,
`labelEncoding` records for each column the map sending its distinct
stringified values, sorted lexicographically, to ordinal indices 0..n-1;
lookup of a listed value returns its rank in that sorted list and lookup
of an absent value defaults to 0; each row's cell in that column is
rewritten in place to the numeric index of its original stringified
value; all other columns are untouched; and the spec's worked example
`["A","A","B","C","A"]` yields the mapping `{A:0, B:1, C:2}`. -/
theorem labelEncoding_alphabetical_ordinal (numStr : ℝ → String) (data : List Row)
    (cols : List String) (hnd : cols.Nodup) :
    (∀ col ∈ cols,
      (labelEncoding numStr data cols).2 col = some (labelColumnMap numStr data col)
      ∧ List.Sorted (· ≤ ·) (uniqueSorted numStr data col)
      ∧ (uniqueSorted numStr data col).Nodup
      ∧ (∀ s, s ∈ uniqueSorted numStr data col ↔ s ∈ colKeys numStr data col)
      ∧ (∀ s ∈ uniqueSorted numStr data col,
          lookupOr0 (labelColumnMap numStr data col) s
            = (uniqueSorted numStr data col).indexOf s)
      ∧ (∀ s, s ∉ uniqueSorted numStr data col →
          lookupOr0 (labelColumnMap numStr data col) s = 0)
      ∧ ∀ i, i < data.length →
          ((labelEncoding numStr data cols).1.getD i emptyRow) col
            = some (Value.vnum
                ((lookupOr0 (labelColumnMap numStr data col)
                  (keyStr numStr ((data.getD i emptyRow) col)) : ℕ) : ℝ)))
    ∧ (∀ col2 i, col2 ∉ cols → i < data.length →
        ((labelEncoding numStr data cols).1.getD i emptyRow) col2
          = (data.getD i emptyRow) col2)
    ∧ (labelEncoding numStr exLabelData ["cat"]).2 "cat"
        = some [("A", 0), ("B", 1), ("C", 2)] := by
  have hrows : (labelEncoding numStr data cols).1
      = data.map (fun r => cols.foldl (fun r c => labelApply numStr data c r) r) := by
    unfold labelEncoding
    rw [labelEncoding_rows_eq]
    have hid : data.map (fun row : Row => row) = data := by simp
    rw [hid]
  have hlocal := foldl_local_rowfns (fun c r => labelApply numStr data c r)
    (fun c o => some (Value.vnum
      ((lookupOr0 (labelColumnMap numStr data c) (keyStr numStr o) : ℕ) : ℝ)))
    (by
      intro c r x hx
      unfold labelApply updRow
      dsimp only
      rw [if_neg hx])
    (by
      intro c r
      unfold labelApply updRow
      dsimp only
      rw [if_pos rfl])
  refine ⟨?_, ?_, ?_⟩
  · intro col hcol
    refine ⟨?_, uniqueSorted_sorted numStr data col, uniqueSorted_nodup numStr data col,
      uniqueSorted_mem numStr data col,
      fun s hs => labelColumnMap_lookup numStr data col s hs,
      fun s hs => labelColumnMap_lookup_absent numStr data col s hs, ?_⟩
    · unfold labelEncoding
      exact (labelEncoding_maps_at numStr data cols _ _ col).1 hcol
    · intro i hi
      rw [hrows, getD_map_row _ data i hi]
      exact (hlocal cols (data.getD i emptyRow) col).2 hnd hcol
  · intro col2 i hns hi
    rw [hrows, getD_map_row _ data i hi]
    exact (hlocal cols (data.getD i emptyRow) col2).1 hns
  · show (labelEncoding numStr exLabelData ["cat"]).2 "cat" = _
    unfold labelEncoding
    rw [(labelEncoding_maps_at numStr exLabelData ["cat"] _ _ "cat").1
      (List.mem_cons_self "cat" [])]
    rw [labelColumnMap_example]

theorem labelEncoding_alphabetical_witness :
    (["cat"] : List String).Nodup
    ∧ (labelEncoding (fun _ => "") exLabelData ["cat"]).2 "cat"
        = some [("A", 0), ("B", 1), ("C", 2)] :=
  ⟨by decide,
   (labelEncoding_alphabetical_ordinal (fun _ => "") exLabelData ["cat"]
     (by decide)).2.2⟩

theorem foldl_min_le_init : ∀ (t : List ℝ) (a : ℝ), t.foldl min a ≤ a := by
  intro t
  induction t with
  | nil => intro a; exact le_refl a
  | cons b s ih =>
      intro a
      rw [List.foldl_cons]
      exact le_trans (ih (min a b)) (min_le_left a b)

theorem foldl_min_le_mem : ∀ (t : List ℝ) (a x : ℝ), x ∈ t → t.foldl min a ≤ x := by
  intro t
  induction t with
  | nil => intro a x h; exact absurd h (List.not_mem_nil x)
  | cons b s ih =>
      intro a x hx
      rw [List.foldl_cons]
      rcases List.mem_cons.mp hx with h | h
      · rw [h]
        exact le_trans (foldl_min_le_init s (min a b)) (min_le_right a b)
      · exact ih (min a b) x h

theorem foldl_max_ge_init : ∀ (t : List ℝ) (a : ℝ), a ≤ t.foldl max a := by
  intro t
  induction t with
  | nil => intro a; exact le_refl a
  | cons b s ih =>
      intro a
      rw [List.foldl_cons]
      exact le_trans (le_max_left a b) (ih (max a b))

theorem foldl_max_ge_mem : ∀ (t : List ℝ) (a x : ℝ), x ∈ t → x ≤ t.foldl max a := by
  intro t
  induction t with
  | nil => intro a x h; exact absurd h (List.not_mem_nil x)
  | cons b s ih =>
      intro a x hx
      rw [List.foldl_cons]
      rcases List.mem_cons.mp hx with h | h
      · rw [h]
        exact le_trans (le_max_right a b) (foldl_max_ge_init s (max a b))
      · exact ih (max a b) x h

theorem listMin_le (l : List ℝ) (x : ℝ) (hx : x ∈ l) : listMin l ≤ x := by
  cases l with
  | nil => exact absurd hx (List.not_mem_nil x)
  | cons a t =>
      unfold listMin
      rcases List.mem_cons.mp hx with h | h
      · exact h ▸ foldl_min_le_init t a
      · exact foldl_min_le_mem t a x h

theorem le_listMax (l : List ℝ) (x : ℝ) (hx : x ∈ l) : x ≤ listMax l := by
  cases l with
  | nil => exact absurd hx (List.not_mem_nil x)
  | cons a t =>
      unfold listMax
      rcases List.mem_cons.mp hx with h | h
      · exact h ▸ foldl_max_ge_init t a
      · exact foldl_max_ge_mem t a x h

theorem foldl_min_const : ∀ (t : List ℝ) (a : ℝ), (∀ x ∈ t, x = a) → t.foldl min a = a := by
  intro t
  induction t with
  | nil => intro a _; rfl
  | cons b s ih =>
      intro a h
      rw [List.foldl_cons]
      have hb : b = a := h b (List.mem_cons_self b s)
      rw [hb, min_self]
      exact ih a (fun x hx => h x (List.mem_cons_of_mem b hx))

theorem foldl_max_const : ∀ (t : List ℝ) (a : ℝ), (∀ x ∈ t, x = a) → t.foldl max a = a := by
  intro t
  induction t with
  | nil => intro a _; rfl
  | cons b s ih =>
      intro a h
      rw [List.foldl_cons]
      have hb : b = a := h b (List.mem_cons_self b s)
      rw [hb, max_self]
      exact ih a (fun x hx => h x (List.mem_cons_of_mem b hx))

/-- On a nonempty list, "all values equal" is exactly "max = min". -/
theorem allEq_iff_max_eq_min (l : List ℝ) (hne : l ≠ []) :
    (∀ x ∈ l, ∀ y ∈ l, x = y) ↔ listMax l = listMin l := by
  constructor
  · intro h
    cases l with
    | nil => exact absurd rfl hne
    | cons a t =>
        have hall : ∀ x ∈ t, x = a := fun x hx =>
          h x (List.mem_cons_of_mem a hx) a (List.mem_cons_self a t)
        show t.foldl max a = t.foldl min a
        rw [foldl_max_const t a hall, foldl_min_const t a hall]
  · intro h x hx y hy
    have h1 : x ≤ listMax l := le_listMax l x hx
    have h2 : listMin l ≤ x := listMin_le l x hx
    have h3 : y ≤ listMax l := le_listMax l y hy
    have h4 : listMin l ≤ y := listMin_le l y hy
    rw [h] at h1 h3
    have : x = listMin l := le_antisymm h1 h2
    have hy2 : y = listMin l := le_antisymm h3 h4
    rw [this, hy2]

theorem sum_nonneg_eq_zero : ∀ (l : List ℝ), (∀ x ∈ l, 0 ≤ x) →
    (l.sum = 0 ↔ ∀ x ∈ l, x = 0) := by
  intro l
  induction l with
  | nil => intro _; simp
  | cons a t ih =>
      intro h
      rw [List.sum_cons]
      have ha : 0 ≤ a := h a (List.mem_cons_self a t)
      have ht : ∀ x ∈ t, 0 ≤ x := fun x hx => h x (List.mem_cons_of_mem a hx)
      have hts : 0 ≤ t.sum := List.sum_nonneg ht
      constructor
      · intro hz
        have ha0 : a = 0 := by linarith [hts, ha]
        have ht0 : t.sum = 0 := by linarith
        intro x hx
        rcases List.mem_cons.mp hx with hxx | hxx
        · exact hxx.trans ha0
        · exact (ih ht).mp ht0 x hxx
      · intro hall
        have ha0 : a = 0 := hall a (List.mem_cons_self a t)
        have ht0 : t.sum = 0 := (ih ht).mpr (fun x hx => hall x (List.mem_cons_of_mem a hx))
        rw [ha0, ht0, add_zero]

theorem sum_const_list : ∀ (l : List ℝ) (a : ℝ), (∀ x ∈ l, x = a) →
    l.sum = (l.length : ℝ) * a := by
  intro l
  induction l with
  | nil => intro a _; simp
  | cons b t ih =>
      intro a h
      rw [List.sum_cons, ih a (fun x hx => h x (List.mem_cons_of_mem b hx)),
        h b (List.mem_cons_self b t), List.length_cons]
      push_cast
      ring

/-- The population variance of the normalizers is 0 exactly when all the
values are equal.  `V` nonempty. -/
theorem variance_zero_iff_allEq (V : List ℝ) (hne : V ≠ []) :
    (V.map (fun v => (v - V.sum / (V.length : ℝ)) ^ 2)).sum / (V.length : ℝ) = 0
      ↔ ∀ x ∈ V, ∀ y ∈ V, x = y := by
  have hlen : (V.length : ℝ) ≠ 0 := by
    simp only [ne_eq, Nat.cast_eq_zero, List.length_eq_zero]
    exact hne
  have hnn : ∀ x ∈ V.map (fun v => (v - V.sum / (V.length : ℝ)) ^ 2), 0 ≤ x := by
    intro x hx
    rcases List.mem_map.mp hx with ⟨v, _, hv⟩
    rw [← hv]
    exact sq_nonneg _
  rw [div_eq_zero_iff]
  constructor
  · intro h
    have hs : (V.map (fun v => (v - V.sum / (V.length : ℝ)) ^ 2)).sum = 0 := by
      rcases h with h | h
      · exact h
      · exact absurd h hlen
    have hall := (sum_nonneg_eq_zero _ hnn).mp hs
    have hmean : ∀ v ∈ V, v = V.sum / (V.length : ℝ) := by
      intro v hv
      have := hall _ (List.mem_map.mpr ⟨v, hv, rfl⟩)
      have hsub : v - V.sum / (V.length : ℝ) = 0 := by
        have := sq_eq_zero_iff.mp this
        exact this
      linarith
    intro x hx y hy
    rw [hmean x hx, hmean y hy]
  · intro h
    left
    cases V with
    | nil => exact absurd rfl hne
    | cons a t =>
        have hall : ∀ x ∈ a :: t, x = a := fun x hx =>
          h x hx a (List.mem_cons_self a t)
        have hsum : (a :: t).sum = ((a :: t).length : ℝ) * a :=
          sum_const_list _ a hall
        have hmean : (a :: t).sum / ((a :: t).length : ℝ) = a := by
          rw [hsum, mul_comm, mul_div_assoc, div_self hlen, mul_one]
        apply (sum_nonneg_eq_zero _ hnn).mpr
        intro x hx
        rcases List.mem_map.mp hx with ⟨v, hv, hvx⟩
        rw [← hvx, hmean, hall v hv, sub_self]
        exact zero_pow (by norm_num)

/-- C8: for a nonempty dataset and a listed numeric column, "all coerced
values equal" coincides with `max = min` and with the recorded standard
deviation being 0; a constant column is rewritten to 0 in every row by
both `minMaxNormalization` and `zScoreNormalization`; a non-constant
column is rewritten positionally to `(x - min)/(max - min)` with the
statistics computed over the original `data`. -/
theorem normalization_constant_column (parseNum : String → Option ℝ)
    (data : List Row) (cols : List String) (col : String)
    (hnd : cols.Nodup) (hcol : col ∈ cols) (hne : data ≠ []) :
    ((∀ x ∈ colValues parseNum data col, ∀ y ∈ colValues parseNum data col, x = y)
        ↔ listMax (colValues parseNum data col) = listMin (colValues parseNum data col))
    ∧ ((∀ x ∈ colValues parseNum data col, ∀ y ∈ colValues parseNum data col, x = y)
        ↔ (mmStats parseNum data col).std = 0)
    ∧ (listMax (colValues parseNum data col) = listMin (colValues parseNum data col) →
        ∀ i, i < data.length →
          ((minMaxNormalization parseNum data cols).1.getD i emptyRow) col
              = some (Value.vnum 0)
          ∧ ((zScoreNormalization parseNum data cols).1.getD i emptyRow) col
              = some (Value.vnum 0))
    ∧ (listMax (colValues parseNum data col) ≠ listMin (colValues parseNum data col) →
        ∀ i, i < data.length →
          ((minMaxNormalization parseNum data cols).1.getD i emptyRow) col
            = some (Value.vnum
                ((jsNum parseNum ((data.getD i emptyRow) col)
                    - listMin (colValues parseNum data col))
                  / (listMax (colValues parseNum data col)
                    - listMin (colValues parseNum data col))))) := by
  have hlen : (colValues parseNum data col).length ≠ 0 := by
    unfold colValues
    rw [List.length_map]
    simp only [ne_eq, List.length_eq_zero]
    exact hne
  have hVne : colValues parseNum data col ≠ [] := by
    intro h
    rw [h] at hlen
    exact hlen rfl
  have hstats : (mmStats parseNum data col).std
      = Real.sqrt (((colValues parseNum data col).map
          (fun v => (v - (colValues parseNum data col).sum
            / ((colValues parseNum data col).length : ℝ)) ^ 2)).sum
          / ((colValues parseNum data col).length : ℝ)) := by
    unfold mmStats
    rw [if_neg hlen]
  have hvnn : 0 ≤ ((colValues parseNum data col).map
      (fun v => (v - (colValues parseNum data col).sum
        / ((colValues parseNum data col).length : ℝ)) ^ 2)).sum
      / ((colValues parseNum data col).length : ℝ) := by
    apply div_nonneg
    · apply List.sum_nonneg
      intro x hx
      rcases List.mem_map.mp hx with ⟨v, _, hv⟩
      rw [← hv]
      exact sq_nonneg _
    · exact Nat.cast_nonneg _
  have hlocMM := foldl_local_rowfns (fun c r => mmApply parseNum data c r)
    (fun c o => if (colValues parseNum data c).length = 0 then o
      else some (Value.vnum
        (if listMax (colValues parseNum data c) - listMin (colValues parseNum data c) = 0
         then 0
         else (jsNum parseNum o - listMin (colValues parseNum data c))
              / (listMax (colValues parseNum data c) - listMin (colValues parseNum data c)))))
    (by
      intro c r x hx
      have hm : mmApply parseNum data c r
          = if (colValues parseNum data c).length = 0 then r
            else updRow r c (Value.vnum
              (if listMax (colValues parseNum data c) - listMin (colValues parseNum data c) = 0
               then 0
               else (jsNum parseNum (r c) - listMin (colValues parseNum data c))
                    / (listMax (colValues parseNum data c)
                       - listMin (colValues parseNum data c)))) := rfl
      dsimp only
      rw [hm]
      by_cases hc : (colValues parseNum data c).length = 0
      · rw [if_pos hc]
      · rw [if_neg hc]
        unfold updRow
        rw [if_neg hx])
    (by
      intro c r
      have hm : mmApply parseNum data c r
          = if (colValues parseNum data c).length = 0 then r
            else updRow r c (Value.vnum
              (if listMax (colValues parseNum data c) - listMin (colValues parseNum data c) = 0
               then 0
               else (jsNum parseNum (r c) - listMin (colValues parseNum data c))
                    / (listMax (colValues parseNum data c)
                       - listMin (colValues parseNum data c)))) := rfl
      dsimp only
      rw [hm]
      by_cases hc : (colValues parseNum data c).length = 0
      · rw [if_pos hc, if_pos hc]
      · rw [if_neg hc, if_neg hc]
        unfold updRow
        rw [if_pos rfl])
  have hlocZ := foldl_local_rowfns (fun c r => zApply parseNum data c r)
    (fun c o => if (colValues parseNum data c).length = 0 then o
      else some (Value.vnum
        (if Real.sqrt (((colValues parseNum data c).map
              (fun v => (v - (colValues parseNum data c).sum
                / ((colValues parseNum data c).length : ℝ)) ^ 2)).sum
              / ((colValues parseNum data c).length : ℝ)) = 0
         then 0
         else (jsNum parseNum o - (colValues parseNum data c).sum
                / ((colValues parseNum data c).length : ℝ))
              / Real.sqrt (((colValues parseNum data c).map
                  (fun v => (v - (colValues parseNum data c).sum
                    / ((colValues parseNum data c).length : ℝ)) ^ 2)).sum
                  / ((colValues parseNum data c).length : ℝ)))))
    (by
      intro c r x hx
      have hm : zApply parseNum data c r
          = if (colValues parseNum data c).length = 0 then r
            else updRow r c (Value.vnum
              (if Real.sqrt (((colValues parseNum data c).map
                    (fun v => (v - (colValues parseNum data c).sum
                      / ((colValues parseNum data c).length : ℝ)) ^ 2)).sum
                    / ((colValues parseNum data c).length : ℝ)) = 0
               then 0
               else (jsNum parseNum (r c) - (colValues parseNum data c).sum
                      / ((colValues parseNum data c).length : ℝ))
                    / Real.sqrt (((colValues parseNum data c).map
                        (fun v => (v - (colValues parseNum data c).sum
                          / ((colValues parseNum data c).length : ℝ)) ^ 2)).sum
                        / ((colValues parseNum data c).length : ℝ)))) := rfl
      dsimp only
      rw [hm]
      by_cases hc : (colValues parseNum data c).length = 0
      · rw [if_pos hc]
      · rw [if_neg hc]
        unfold updRow
        rw [if_neg hx])
    (by
      intro c r
      have hm : zApply parseNum data c r
          = if (colValues parseNum data c).length = 0 then r
            else updRow r c (Value.vnum
              (if Real.sqrt (((colValues parseNum data c).map
                    (fun v => (v - (colValues parseNum data c).sum
                      / ((colValues parseNum data c).length : ℝ)) ^ 2)).sum
                    / ((colValues parseNum data c).length : ℝ)) = 0
               then 0
               else (jsNum parseNum (r c) - (colValues parseNum data c).sum
                      / ((colValues parseNum data c).length : ℝ))
                    / Real.sqrt (((colValues parseNum data c).map
                        (fun v => (v - (colValues parseNum data c).sum
                          / ((colValues parseNum data c).length : ℝ)) ^ 2)).sum
                        / ((colValues parseNum data c).length : ℝ)))) := rfl
      dsimp only
      rw [hm]
      by_cases hc : (colValues parseNum data c).length = 0
      · rw [if_pos hc, if_pos hc]
      · rw [if_neg hc, if_neg hc]
        unfold updRow
        rw [if_pos rfl])
  have hrowsMM : (minMaxNormalization parseNum data cols).1
      = data.map (fun r => cols.foldl (fun r c => mmApply parseNum data c r) r) := by
    unfold minMaxNormalization
    rw [minMax_rows_eq]
    have hid : data.map (fun row : Row => row) = data := by simp
    rw [hid]
  have hrowsZ : (zScoreNormalization parseNum data cols).1
      = data.map (fun r => cols.foldl (fun r c => zApply parseNum data c r) r) := by
    unfold zScoreNormalization
    rw [zScore_rows_eq]
    have hid : data.map (fun row : Row => row) = data := by simp
    rw [hid]
  refine ⟨allEq_iff_max_eq_min _ hVne, ?_, ?_, ?_⟩
  · rw [hstats, Real.sqrt_eq_zero hvnn]
    exact (variance_zero_iff_allEq _ hVne).symm
  · intro hmm i hi
    have hsub : listMax (colValues parseNum data col)
        - listMin (colValues parseNum data col) = 0 := sub_eq_zero_of_eq hmm
    have hvar0 : ((colValues parseNum data col).map
        (fun v => (v - (colValues parseNum data col).sum
          / ((colValues parseNum data col).length : ℝ)) ^ 2)).sum
        / ((colValues parseNum data col).length : ℝ) = 0 :=
      (variance_zero_iff_allEq _ hVne).mpr ((allEq_iff_max_eq_min _ hVne).mpr hmm)
    constructor
    · rw [hrowsMM, getD_map_row _ data i hi,
        (hlocMM cols (data.getD i emptyRow) col).2 hnd hcol]
      dsimp only
      rw [if_neg hlen, if_pos hsub]
    · rw [hrowsZ, getD_map_row _ data i hi,
        (hlocZ cols (data.getD i emptyRow) col).2 hnd hcol]
      dsimp only
      rw [if_neg hlen]
      rw [hvar0, Real.sqrt_zero, if_pos rfl]
  · intro hmm i hi
    have hsub : listMax (colValues parseNum data col)
        - listMin (colValues parseNum data col) ≠ 0 := sub_ne_zero.mpr hmm
    rw [hrowsMM, getD_map_row _ data i hi,
      (hlocMM cols (data.getD i emptyRow) col).2 hnd hcol]
    dsimp only
    rw [if_neg hlen, if_neg hsub]

theorem normalization_constant_witness :
    (["n"] : List String).Nodup ∧ ("n" : String) ∈ (["n"] : List String)
    ∧ exConstData ≠ []
    ∧ (((minMaxNormalization parse0 exConstData ["n"]).1.getD 0 emptyRow) "n"
          = some (Value.vnum 0)
       ∧ ((zScoreNormalization parse0 exConstData ["n"]).1.getD 0 emptyRow) "n"
          = some (Value.vnum 0)) := by
  have hV : colValues parse0 exConstData "n" = [5, 5, 5, 5] := rfl
  have hmaxmin : listMax (colValues parse0 exConstData "n")
      = listMin (colValues parse0 exConstData "n") := by
    rw [hV]
    show ([5, 5, 5] : List ℝ).foldl max 5 = ([5, 5, 5] : List ℝ).foldl min 5
    norm_num [List.foldl]
  exact ⟨by decide, by decide, List.cons_ne_nil _ _,
    (normalization_constant_column parse0 exConstData ["n"] "n"
      (by decide) (by decide) (List.cons_ne_nil _ _)).2.2.1 hmaxmin 0 (by decide)⟩

/-- A fold of per-column row functions each of which writes only inside
its own key set and reads only inside it: on pairwise disjoint key sets
the fold behaves at each key as the single owning function applied to
the original row. -/
theorem foldl_keyed_rowfns (fns : String → Row → Row) (keys : String → List String)
    (hloc : ∀ c r x, x ∉ keys c → fns c r x = r x)
    (hdep : ∀ c r r', (∀ y ∈ keys c, r y = r' y) → ∀ x ∈ keys c, fns c r x = fns c r' x) :
    ∀ (cols : List String), cols.Nodup →
      (∀ c1 ∈ cols, ∀ c2 ∈ cols, c1 ≠ c2 → ∀ x ∈ keys c1, x ∉ keys c2) →
      ∀ (r : Row) (x : String),
        ((∀ c ∈ cols, x ∉ keys c) → (cols.foldl (fun r c => fns c r) r) x = r x)
        ∧ ∀ c ∈ cols, x ∈ keys c → (cols.foldl (fun r c => fns c r) r) x = fns c r x := by
  intro cols
  induction cols with
  | nil =>
      intro _ _ r x
      exact ⟨fun _ => rfl, fun c hc => absurd hc (List.not_mem_nil c)⟩
  | cons c0 t ih =>
      intro hnd hdis r x
      rw [List.nodup_cons] at hnd
      have hdisT : ∀ c1 ∈ t, ∀ c2 ∈ t, c1 ≠ c2 → ∀ y ∈ keys c1, y ∉ keys c2 :=
        fun c1 h1 c2 h2 => hdis c1 (List.mem_cons_of_mem c0 h1) c2 (List.mem_cons_of_mem c0 h2)
      rw [List.foldl_cons]
      constructor
      · intro hall
        rw [(ih hnd.2 hdisT (fns c0 r) x).1
          (fun c hc => hall c (List.mem_cons_of_mem c0 hc))]
        exact hloc c0 r x (hall c0 (List.mem_cons_self c0 t))
      · intro c hc hx
        rcases List.mem_cons.mp hc with rfl | hct
        · have hnone : ∀ c2 ∈ t, x ∉ keys c2 := by
            intro c2 hc2
            have hne : c ≠ c2 := fun h => hnd.1 (h ▸ hc2)
            exact hdis c (List.mem_cons_self c t) c2 (List.mem_cons_of_mem c hc2) hne x hx
          rw [(ih hnd.2 hdisT (fns c r) x).1 hnone]
        · rw [(ih hnd.2 hdisT (fns c0 r) x).2 c hct hx]
          apply hdep c (fns c0 r) r _ x hx
          intro y hy
          apply hloc c0 r y
          have hne : c ≠ c0 := fun h => hnd.1 (h ▸ hct)
          exact hdis c (List.mem_cons_of_mem c0 hct) c0 (List.mem_cons_self c0 t) hne y hy

theorem foldl_updConst_at (c : String) (val : Value) :
    ∀ (l : List String) (r : Row) (x : String),
      (l.foldl (fun r v => updRow r (oneHotName c v) val) r) x
        = if x ∈ l.map (oneHotName c) then some val else r x := by
  intro l
  induction l with
  | nil => intro r x; simp
  | cons v t ih =>
      intro r x
      rw [List.foldl_cons, ih, List.map_cons]
      by_cases hx : x ∈ t.map (oneHotName c)
      · rw [if_pos hx, if_pos (List.mem_cons_of_mem _ hx)]
      · rw [if_neg hx]
        by_cases hxv : x = oneHotName c v
        · rw [if_pos (List.mem_cons.mpr (Or.inl hxv))]
          unfold updRow
          rw [if_pos hxv]
        · have hmem : x ∉ oneHotName c v :: t.map (oneHotName c) := by
            intro h
            rcases List.mem_cons.mp h with h1 | h1
            · exact hxv h1
            · exact hx h1
          rw [if_neg hmem]
          unfold updRow
          rw [if_neg hxv]

theorem foldl_delRow_at : ∀ (l : List String) (r : Row) (x : String),
    (l.foldl delRow r) x = if x ∈ l then none else r x := by
  intro l
  induction l with
  | nil => intro r x; simp
  | cons c t ih =>
      intro r x
      rw [List.foldl_cons, ih]
      by_cases hx : x ∈ t
      · rw [if_pos hx, if_pos (List.mem_cons_of_mem c hx)]
      · rw [if_neg hx]
        by_cases hxc : x = c
        · rw [if_pos (List.mem_cons.mpr (Or.inl hxc))]
          unfold delRow
          rw [if_pos hxc]
        · have hmem : x ∉ c :: t := by
            intro h
            rcases List.mem_cons.mp h with h1 | h1
            · exact hxc h1
            · exact hx h1
          rw [if_neg hmem]
          unfold delRow
          rw [if_neg hxc]

theorem find_pairs_mem (c : String) : ∀ (l : List String) (key : String), key ∈ l →
    (l.map (fun v => (v, oneHotName c v))).find? (fun e => decide (e.1 = key))
      = some (key, oneHotName c key) := by
  intro l
  induction l with
  | nil => intro key h; exact absurd h (List.not_mem_nil key)
  | cons v t ih =>
      intro key hk
      rw [List.map_cons]
      by_cases hv : v = key
      · rw [List.find?_cons_of_pos _ (by simp [hv])]
        rw [hv]
      · rw [List.find?_cons_of_neg _ (by simp [hv])]
        have hkt : key ∈ t := by
          rcases List.mem_cons.mp hk with h | h
          · exact absurd h.symm hv
          · exact h
        exact ih key hkt

theorem find_pairs_none (c : String) : ∀ (l : List String) (key : String), key ∉ l →
    (l.map (fun v => (v, oneHotName c v))).find? (fun e => decide (e.1 = key))
      = none := by
  intro l
  induction l with
  | nil => intro key _; rfl
  | cons v t ih =>
      intro key hk
      rw [List.map_cons]
      have hv : v ≠ key := fun h => hk (h ▸ List.mem_cons_self v t)
      rw [List.find?_cons_of_neg _ (by simp [hv])]
      exact ih key (fun h => hk (List.mem_cons_of_mem v h))

theorem ohInit_at (numStr : ℝ → String) (data : List Row) (c : String)
    (r : Row) (x : String) :
    (ohInitApply numStr data c r) x
      = if x ∈ genNames numStr data c then some (Value.vnum 0) else r x := by
  unfold ohInitApply genNames
  exact foldl_updConst_at c (Value.vnum 0) (uniqueSorted numStr data c) r x

theorem ohApply_untouched (numStr : ℝ → String) (data : List Row) (c : String)
    (r : Row) (x : String) (hxc : x ≠ c) (hxn : x ∉ genNames numStr data c) :
    ohSetApply numStr data c (ohInitApply numStr data c r) x = r x := by
  unfold ohSetApply
  show (delRow _ c) x = r x
  unfold delRow
  rw [if_neg hxc]
  cases hfind : (oneHotPairs numStr data c).find?
      (fun e => decide (e.1 = keyStr numStr (ohInitApply numStr data c r c))) with
  | none =>
      dsimp only
      rw [ohInit_at, if_neg hxn]
  | some e =>
      have he : e ∈ oneHotPairs numStr data c := List.mem_of_find?_eq_some hfind
      have he2 : e.2 ∈ genNames numStr data c := by
        unfold oneHotPairs at he
        rcases List.mem_map.mp he with ⟨v, hv, hve⟩
        unfold genNames
        exact List.mem_map.mpr ⟨v, hv, by rw [← hve]⟩
      have hxe : x ≠ e.2 := fun h => hxn (h ▸ he2)
      show (if x = e.2 then some (Value.vnum 1) else ohInitApply numStr data c r x) = r x
      rw [if_neg hxe, ohInit_at, if_neg hxn]

theorem ohApply_at_own (numStr : ℝ → String) (data : List Row) (c : String)
    (r : Row) :
    ohSetApply numStr data c (ohInitApply numStr data c r) c = none := by
  unfold ohSetApply
  show (delRow _ c) c = none
  unfold delRow
  rw [if_pos rfl]

theorem ohApply_at_name (numStr : ℝ → String) (data : List Row) (c : String)
    (r : Row) (v : String)
    (hv : v ∈ uniqueSorted numStr data c)
    (hkey : keyStr numStr (r c) ∈ uniqueSorted numStr data c)
    (hcn : c ∉ genNames numStr data c)
    (hinj : ∀ v1 ∈ uniqueSorted numStr data c, ∀ v2 ∈ uniqueSorted numStr data c,
        oneHotName c v1 = oneHotName c v2 → v1 = v2) :
    ohSetApply numStr data c (ohInitApply numStr data c r) (oneHotName c v)
      = some (Value.vnum (if keyStr numStr (r c) = v then 1 else 0)) := by
  have hrc : (ohInitApply numStr data c r) c = r c := by
    rw [ohInit_at, if_neg hcn]
  have hnc : oneHotName c v ≠ c := by
    intro h
    have hmem : oneHotName c v ∈ genNames numStr data c :=
      List.mem_map.mpr ⟨v, hv, rfl⟩
    rw [h] at hmem
    exact hcn hmem
  unfold ohSetApply
  rw [hrc]
  unfold oneHotPairs
  rw [find_pairs_mem c _ _ hkey]
  show (delRow (updRow _ _ _) c) (oneHotName c v) = _
  unfold delRow
  rw [if_neg hnc]
  unfold updRow
  by_cases hkv : keyStr numStr (r c) = v
  · have hname : oneHotName c v = oneHotName c (keyStr numStr (r c)) := by rw [hkv]
    rw [if_pos hname, if_pos hkv]
  · have hname : oneHotName c v ≠ oneHotName c (keyStr numStr (r c)) := by
      intro h
      exact hkv (hinj _ hv _ hkey h).symm
    have hmemn : oneHotName c v ∈ genNames numStr data c :=
      List.mem_map.mpr ⟨v, hv, rfl⟩
    rw [if_neg hname, if_neg hkv, ohInit_at, if_pos hmemn]

theorem oneHotName_length (c v : String) :
    (oneHotName c v).length = c.length + 1 + (sanitizeKey v).length := by
  unfold oneHotName
  rw [String.length_append, String.length_append]
  have h2 : ("_" : String).length = 1 := rfl
  rw [h2]

theorem oneHotName_ne_short (c v x : String) (hx : x.length ≤ c.length) :
    oneHotName c v ≠ x := by
  intro h
  have hl := congrArg String.length h
  rw [oneHotName_length] at hl
  omega

/-- The combined init-set-delete row operation of one one-hot column
reads the input row only at the column itself when producing values
inside its own key set. -/
theorem ohApply_dep (numStr : ℝ → String) (data : List Row) (c : String)
    (r r' : Row) (hagree : ∀ y ∈ c :: genNames numStr data c, r y = r' y) :
    ∀ x ∈ c :: genNames numStr data c,
      ohSetApply numStr data c (ohInitApply numStr data c r) x
        = ohSetApply numStr data c (ohInitApply numStr data c r') x := by
  have hrc : r c = r' c := hagree c (List.mem_cons_self c _)
  have hinitc : (ohInitApply numStr data c r) c = (ohInitApply numStr data c r') c := by
    rw [ohInit_at, ohInit_at, hrc]
  intro x hx
  unfold ohSetApply
  by_cases hxc : x = c
  · have hdel : ∀ r2 : Row, (delRow r2 c) x = none := by
      intro r2
      unfold delRow
      rw [if_pos hxc]
    rw [hdel, hdel]
  · unfold delRow
    rw [if_neg hxc, if_neg hxc, hinitc]
    have hxg : x ∈ genNames numStr data c := by
      rcases List.mem_cons.mp hx with h | h
      · exact absurd h hxc
      · exact h
    cases hfind : (oneHotPairs numStr data c).find?
        (fun e => decide (e.1 = keyStr numStr (ohInitApply numStr data c r' c))) with
    | none =>
        show ohInitApply numStr data c r x = ohInitApply numStr data c r' x
        rw [ohInit_at, ohInit_at, if_pos hxg, if_pos hxg]
    | some e =>
        show (if x = e.2 then some (Value.vnum 1) else ohInitApply numStr data c r x)
            = (if x = e.2 then some (Value.vnum 1) else ohInitApply numStr data c r' x)
        by_cases hxe : x = e.2
        · rw [if_pos hxe, if_pos hxe]
        · rw [if_neg hxe, if_neg hxe, ohInit_at, ohInit_at, if_pos hxg, if_pos hxg]

/-- C7 (amended): `smartOneHotEncoding` records in `excludedColumns`
exactly the columns whose cardinality exceeds the threshold; when NO
column survives the filter it returns the row copies unchanged — the
excluded columns are NOT dropped from the encoded data in that case;
when at least one column survives, each retained column `c` is replaced
by one indicator column per distinct value `v` holding 1 on matching
rows and 0 elsewhere, the retained originals and the excluded columns
are absent from the encoded rows, other columns are untouched, and
`newColumns` lists the generated indicator names.  The hypotheses state
that the generated indicator names collide neither with the data's
column names nor with each other. -/
theorem smartOneHot_exclusion_and_indicators (numStr : ℝ → String) (data : List Row)
    (cols : List String) (maxCard : ℕ)
    (hnd : cols.Nodup)
    (hfresh : ∀ c ∈ cols, ∀ v ∈ uniqueSorted numStr data c, oneHotName c v ∉ cols)
    (hdisj : ∀ c1 ∈ cols, ∀ c2 ∈ cols, ∀ v1 ∈ uniqueSorted numStr data c1,
        ∀ v2 ∈ uniqueSorted numStr data c2,
        oneHotName c1 v1 = oneHotName c2 v2 → c1 = c2 ∧ v1 = v2) :
    (smartOneHotEncoding numStr data cols maxCard).excludedColumns
        = cols.filter (fun c => decide (¬ cardinalityOf numStr data c ≤ maxCard))
    ∧ ((filterColumnsForClustering numStr data cols maxCard).1 = [] →
        (smartOneHotEncoding numStr data cols maxCard).encodedData
          = data.map (fun r => r))
    ∧ ((filterColumnsForClustering numStr data cols maxCard).1 ≠ [] →
        (smartOneHotEncoding numStr data cols maxCard).newColumns
          = ((filterColumnsForClustering numStr data cols maxCard).1.map
              (fun c => genNames numStr data c)).flatten
        ∧ ∀ i, i < data.length →
            (∀ c ∈ (filterColumnsForClustering numStr data cols maxCard).1,
              (∀ v ∈ uniqueSorted numStr data c,
                ((smartOneHotEncoding numStr data cols maxCard).encodedData.getD i emptyRow)
                    (oneHotName c v)
                  = some (Value.vnum
                      (if keyStr numStr ((data.getD i emptyRow) c) = v then 1 else 0)))
              ∧ ((smartOneHotEncoding numStr data cols maxCard).encodedData.getD i emptyRow) c
                  = none)
            ∧ (∀ e ∈ (filterColumnsForClustering numStr data cols maxCard).2,
                ((smartOneHotEncoding numStr data cols maxCard).encodedData.getD i emptyRow) e
                  = none)
            ∧ (∀ x, x ∉ cols →
                (∀ c ∈ (filterColumnsForClustering numStr data cols maxCard).1,
                  x ∉ genNames numStr data c) →
                ((smartOneHotEncoding numStr data cols maxCard).encodedData.getD i emptyRow) x
                  = (data.getD i emptyRow) x)) := by
  by_cases hsuit : (filterColumnsForClustering numStr data cols maxCard).1 = []
  · have hs : smartOneHotEncoding numStr data cols maxCard
        = SmartOneHotResult.mk (data.map (fun row => row)) (fun _ => none) []
            (filterColumnsForClustering numStr data cols maxCard).2 := by
      unfold smartOneHotEncoding
      rw [if_pos hsuit]
    refine ⟨?_, fun _ => ?_, fun h => absurd hsuit h⟩
    · rw [hs]
      rfl
    · rw [hs]
  · have hs : smartOneHotEncoding numStr data cols maxCard
        = SmartOneHotResult.mk
            ((oneHotEncoding numStr data
                (filterColumnsForClustering numStr data cols maxCard).1).1.map
              (fun row => (filterColumnsForClustering numStr data cols maxCard).2.foldl
                delRow row))
            (oneHotEncoding numStr data
              (filterColumnsForClustering numStr data cols maxCard).1).2.1
            (oneHotEncoding numStr data
              (filterColumnsForClustering numStr data cols maxCard).1).2.2
            (filterColumnsForClustering numStr data cols maxCard).2 := by
      unfold smartOneHotEncoding
      rw [if_neg hsuit]
    have hsub1 : ∀ c ∈ (filterColumnsForClustering numStr data cols maxCard).1, c ∈ cols :=
      fun c hc => (List.mem_filter.mp hc).1
    have hsub2 : ∀ e ∈ (filterColumnsForClustering numStr data cols maxCard).2, e ∈ cols :=
      fun e he => (List.mem_filter.mp he).1
    have hnd1 : (filterColumnsForClustering numStr data cols maxCard).1.Nodup :=
      hnd.filter _
    have hnotboth : ∀ c ∈ (filterColumnsForClustering numStr data cols maxCard).1,
        c ∉ (filterColumnsForClustering numStr data cols maxCard).2 := by
      intro c h1 h2
      have p1 := (List.mem_filter.mp h1).2
      have p2 := (List.mem_filter.mp h2).2
      simp only [decide_eq_true_eq] at p1 p2
      exact p2 p1
    have hcnotgen : ∀ c ∈ cols, c ∉ genNames numStr data c := by
      intro c hc hmem
      rcases List.mem_map.mp hmem with ⟨v, hv, hname⟩
      exact hfresh c hc v hv (by rw [hname]; exact hc)
    have hdisjK : ∀ c1 ∈ (filterColumnsForClustering numStr data cols maxCard).1,
        ∀ c2 ∈ (filterColumnsForClustering numStr data cols maxCard).1, c1 ≠ c2 →
        ∀ x ∈ c1 :: genNames numStr data c1, x ∉ c2 :: genNames numStr data c2 := by
      intro c1 h1 c2 h2 hne x hx hx2
      have hc1 : c1 ∈ cols := hsub1 c1 h1
      have hc2 : c2 ∈ cols := hsub1 c2 h2
      rcases List.mem_cons.mp hx with rfl | hxg1
      · rcases List.mem_cons.mp hx2 with h | hxg2
        · exact hne h
        · rcases List.mem_map.mp hxg2 with ⟨v2, hv2, hn2⟩
          exact hfresh c2 hc2 v2 hv2 (hn2 ▸ hc1)
      · rcases List.mem_map.mp hxg1 with ⟨v1, hv1, hn1⟩
        rcases List.mem_cons.mp hx2 with h | hxg2
        · exact hfresh c1 hc1 v1 hv1 (by rw [hn1, h]; exact hc2)
        · rcases List.mem_map.mp hxg2 with ⟨v2, hv2, hn2⟩
          have heq : oneHotName c1 v1 = oneHotName c2 v2 := by rw [hn1, hn2]
          exact hne (hdisj c1 hc1 c2 hc2 v1 hv1 v2 hv2 heq).1
    have hK := foldl_keyed_rowfns
      (fun c r => ohSetApply numStr data c (ohInitApply numStr data c r))
      (fun c => c :: genNames numStr data c)
      (by
        intro c r x hx
        have hxc : x ≠ c := fun h => hx (h ▸ List.mem_cons_self c _)
        have hxg : x ∉ genNames numStr data c := fun h => hx (List.mem_cons_of_mem c h)
        exact ohApply_untouched numStr data c r x hxc hxg)
      (by
        intro c r r' hagree x hx
        exact ohApply_dep numStr data c r r' hagree x hx)
      (filterColumnsForClustering numStr data cols maxCard).1 hnd1 hdisjK
    have hrowsOh : (oneHotEncoding numStr data
        (filterColumnsForClustering numStr data cols maxCard).1).1
        = data.map (fun r => (filterColumnsForClustering numStr data cols maxCard).1.foldl
            (fun r c => ohSetApply numStr data c (ohInitApply numStr data c r)) r) := by
      unfold oneHotEncoding
      rw [oneHot_rows_eq]
      have hid : data.map (fun row : Row => row) = data := by simp
      rw [hid]
    have hkeyrow : ∀ i, i < data.length → ∀ c,
        keyStr numStr ((data.getD i emptyRow) c) ∈ uniqueSorted numStr data c := by
      intro i hi c
      rw [uniqueSorted_mem]
      unfold colKeys
      apply List.mem_map.mpr
      refine ⟨data.getD i emptyRow, ?_, rfl⟩
      rw [List.getD_eq_getElem?_getD, List.getElem?_eq_getElem hi, Option.getD_some]
      exact List.getElem_mem hi
    have her : ∀ i, i < data.length →
        (smartOneHotEncoding numStr data cols maxCard).encodedData.getD i emptyRow
          = (filterColumnsForClustering numStr data cols maxCard).2.foldl delRow
              ((filterColumnsForClustering numStr data cols maxCard).1.foldl
                (fun r c => ohSetApply numStr data c (ohInitApply numStr data c r))
                (data.getD i emptyRow)) := by
      intro i hi
      rw [hs]
      show ((oneHotEncoding numStr data
          (filterColumnsForClustering numStr data cols maxCard).1).1.map
          (fun row => (filterColumnsForClustering numStr data cols maxCard).2.foldl
            delRow row)).getD i emptyRow = _
      rw [hrowsOh, List.map_map, getD_map_row _ data i hi]
      rfl
    refine ⟨?_, fun h => absurd h hsuit, fun _ => ⟨?_, ?_⟩⟩
    · rw [hs]
      rfl
    · rw [hs]
      show (oneHotEncoding numStr data
          (filterColumnsForClustering numStr data cols maxCard).1).2.2 = _
      unfold oneHotEncoding
      rw [oneHot_newCols_eq]
      rw [List.nil_append]
    · intro i hi
      refine ⟨?_, ?_, ?_⟩
      · intro c hc
        have hcc : c ∈ cols := hsub1 c hc
        constructor
        · intro v hv
          have hnmem : oneHotName c v ∉ (filterColumnsForClustering numStr data cols maxCard).2 :=
            fun h => hfresh c hcc v hv (hsub2 _ h)
          rw [her i hi, foldl_delRow_at, if_neg hnmem]
          rw [(hK (data.getD i emptyRow) (oneHotName c v)).2 c hc
            (List.mem_cons_of_mem c (List.mem_map.mpr ⟨v, hv, rfl⟩))]
          exact ohApply_at_name numStr data c (data.getD i emptyRow) v hv
            (hkeyrow i hi c) (hcnotgen c hcc)
            (fun v1 h1 v2 h2 heq => (hdisj c hcc c hcc v1 h1 v2 h2 heq).2)
        · rw [her i hi, foldl_delRow_at, if_neg (hnotboth c hc)]
          rw [(hK (data.getD i emptyRow) c).2 c hc (List.mem_cons_self c _)]
          exact ohApply_at_own numStr data c (data.getD i emptyRow)
      · intro e he
        rw [her i hi, foldl_delRow_at, if_pos he]
      · intro x hxcols hxgen
        have hxexcl : x ∉ (filterColumnsForClustering numStr data cols maxCard).2 :=
          fun h => hxcols (hsub2 x h)
        rw [her i hi, foldl_delRow_at, if_neg hxexcl]
        apply (hK (data.getD i emptyRow) x).1
        intro c hc hmem
        rcases List.mem_cons.mp hmem with rfl | hg
        · exact hxcols (hsub1 _ hc)
        · exact hxgen c hc hg

theorem smartOneHot_keeps_excluded_counterexample :
    (smartOneHotEncoding (fun _ => "") exWideData ["c"] 10).excludedColumns = ["c"]
    ∧ ((smartOneHotEncoding (fun _ => "") exWideData ["c"] 10).encodedData.getD 0 emptyRow)
        "c" = some (Value.vstr "A") := by
  have hcard : cardinalityOf (fun _ => "") exWideData "c" = 11 := by
    have hck : colKeys (fun _ => "") exWideData "c"
        = ["A", "B", "C", "D", "E", "F", "G", "H", "I", "J", "K"] := rfl
    unfold cardinalityOf
    rw [hck]
    decide
  have hfc : filterColumnsForClustering (fun _ => "") exWideData ["c"] 10 = ([], ["c"]) := by
    unfold filterColumnsForClustering
    simp [List.filter, hcard]
  have hsuit : (filterColumnsForClustering (fun _ => "") exWideData ["c"] 10).1 = [] := by
    rw [hfc]
  have hs : smartOneHotEncoding (fun _ => "") exWideData ["c"] 10
      = SmartOneHotResult.mk (exWideData.map (fun row => row)) (fun _ => none) []
          (filterColumnsForClustering (fun _ => "") exWideData ["c"] 10).2 := by
    unfold smartOneHotEncoding
    rw [if_pos hsuit]
  constructor
  · rw [hs]
    show (filterColumnsForClustering (fun _ => "") exWideData ["c"] 10).2 = ["c"]
    rw [hfc]
  · rw [hs]
    rfl

theorem smartOneHot_amended_witness :
    (["c"] : List String).Nodup
    ∧ (smartOneHotEncoding (fun _ => "") exOhData ["c"] 10).excludedColumns = []
    ∧ ((smartOneHotEncoding (fun _ => "") exOhData ["c"] 10).encodedData.getD 0 emptyRow)
        (oneHotName "c" "A") = some (Value.vnum 1)
    ∧ ((smartOneHotEncoding (fun _ => "") exOhData ["c"] 10).encodedData.getD 0 emptyRow)
        "c" = none := by
  have hcard : cardinalityOf (fun _ => "") exOhData "c" = 2 := by
    have hck : colKeys (fun _ => "") exOhData "c" = ["A", "B"] := rfl
    unfold cardinalityOf
    rw [hck]
    decide
  have hfc : filterColumnsForClustering (fun _ => "") exOhData ["c"] 10 = (["c"], []) := by
    unfold filterColumnsForClustering
    simp [List.filter, hcard]
  have huniq : uniqueSorted (fun _ => "") exOhData "c" = ["A", "B"] := by
    have h1 : colKeys (fun _ => "") exOhData "c" = ["A", "B"] := rfl
    have h2 : (["A", "B"] : List String).dedup = ["A", "B"] := by decide
    have hAB : ("A" : String) ≤ "B" := by
      rw [String.le_iff_toList_le]
      decide
    unfold uniqueSorted
    rw [h1, h2]
    simp [sortStr, insertStr, hAB]
  have hsanA : sanitizeKey "A" = "A" := by
    unfold sanitizeKey
    rw [String.map_eq]
    decide
  have hsanB : sanitizeKey "B" = "B" := by
    unfold sanitizeKey
    rw [String.map_eq]
    decide
  have hnameA : oneHotName "c" "A" = "c_A" := by
    unfold oneHotName
    rw [hsanA]
    decide
  have hnameB : oneHotName "c" "B" = "c_B" := by
    unfold oneHotName
    rw [hsanB]
    decide
  have hfresh : ∀ c ∈ (["c"] : List String),
      ∀ v ∈ uniqueSorted (fun _ => "") exOhData c, oneHotName c v ∉ (["c"] : List String) := by
    intro c hc v _ hmem
    have hcc : c = "c" := by simpa using hc
    subst hcc
    have hm : oneHotName "c" v = "c" := by simpa using hmem
    exact oneHotName_ne_short "c" v "c" (le_refl _) hm
  have hdisj : ∀ c1 ∈ (["c"] : List String), ∀ c2 ∈ (["c"] : List String),
      ∀ v1 ∈ uniqueSorted (fun _ => "") exOhData c1,
      ∀ v2 ∈ uniqueSorted (fun _ => "") exOhData c2,
      oneHotName c1 v1 = oneHotName c2 v2 → c1 = c2 ∧ v1 = v2 := by
    intro c1 hc1 c2 hc2 v1 hv1 v2 hv2 heq
    have h1 : c1 = "c" := by simpa using hc1
    have h2 : c2 = "c" := by simpa using hc2
    subst h1
    subst h2
    rw [huniq] at hv1 hv2
    refine ⟨rfl, ?_⟩
    rcases (by simpa using hv1 : v1 = "A" ∨ v1 = "B") with rfl | rfl <;>
      rcases (by simpa using hv2 : v2 = "A" ∨ v2 = "B") with rfl | rfl
    · rfl
    · rw [hnameA, hnameB] at heq
      exact absurd heq (by decide)
    · rw [hnameA, hnameB] at heq
      exact absurd heq.symm (by decide)
    · rfl
  have hth := smartOneHot_exclusion_and_indicators (fun _ => "") exOhData ["c"] 10
    (by decide) hfresh hdisj
  have hsne : (filterColumnsForClustering (fun _ => "") exOhData ["c"] 10).1 ≠ [] := by
    rw [hfc]
    exact List.cons_ne_nil _ _
  have hcm : ("c" : String) ∈ (filterColumnsForClustering (fun _ => "") exOhData ["c"] 10).1 := by
    rw [hfc]
    exact List.mem_cons_self _ _
  have hper := (hth.2.2 hsne).2 0 (by decide)
  have hAv : ("A" : String) ∈ uniqueSorted (fun _ => "") exOhData "c" := by
    rw [huniq]
    exact List.mem_cons_self _ _
  refine ⟨by decide, ?_, ?_, ?_⟩
  · rw [hth.1]
    simp [List.filter, hcard]
  · have hind := ((hper.1 "c" hcm).1 "A" hAv)
    have hkey : keyStr (fun _ => "") ((exOhData.getD 0 emptyRow) "c") = "A" := rfl
    rw [hkey, if_pos rfl] at hind
    exact hind
  · exact (hper.1 "c" hcm).2

theorem mem_copyAddrs (refs : List ℕ) (fresh a : ℕ) :
    a ∈ copyAddrs refs fresh ↔ ∃ i, i < refs.length ∧ a = fresh + i := by
  unfold copyAddrs
  constructor
  · intro h
    rcases List.mem_map.mp h with ⟨i, hi, hia⟩
    exact ⟨i, List.mem_range.mp hi, hia.symm⟩
  · intro ⟨i, hi, hia⟩
    exact List.mem_map.mpr ⟨i, List.mem_range.mpr hi, hia.symm⟩

theorem copyAddrs_nodup (refs : List ℕ) (fresh : ℕ) :
    (copyAddrs refs fresh).Nodup :=
  (List.nodup_range _).map (fun i j hij => Nat.add_left_cancel hij)

theorem mutateRefs_at : ∀ (addrs : List ℕ), addrs.Nodup →
    ∀ (h : Heap) (f : Row → Row) (a : ℕ),
      (mutateRefs h addrs f) a = if a ∈ addrs then f (h a) else h a := by
  intro addrs
  induction addrs with
  | nil => intro _ h f a; simp [mutateRefs]
  | cons a0 t ih =>
      intro hnd h f a
      rw [List.nodup_cons] at hnd
      unfold mutateRefs
      rw [List.foldl_cons]
      have hres := ih hnd.2 (writeAt h a0 (f (h a0))) f a
      unfold mutateRefs at hres
      rw [hres]
      by_cases hat : a ∈ t
      · have hne : a ≠ a0 := fun he => hnd.1 (he ▸ hat)
        rw [if_pos hat, if_pos (List.mem_cons_of_mem a0 hat)]
        unfold writeAt
        rw [if_neg hne]
      · rw [if_neg hat]
        unfold writeAt
        by_cases hae : a = a0
        · rw [if_pos hae, if_pos (List.mem_cons.mpr (Or.inl hae)), hae]
        · have hmem : a ∉ a0 :: t := by
            intro hmem
            rcases List.mem_cons.mp hmem with h1 | h1
            · exact hae h1
            · exact hat h1
          rw [if_neg hae, if_neg hmem]

theorem foldl_mutate_frame (addrs : List ℕ) (hnd : addrs.Nodup) (a : ℕ)
    (ha : a ∉ addrs) :
    ∀ (passes : List (Row → Row)) (hh : Heap),
      (passes.foldl (fun hh f => mutateRefs hh addrs f) hh) a = hh a := by
  intro passes
  induction passes with
  | nil => intro hh; rfl
  | cons f fs ih =>
      intro hh
      rw [List.foldl_cons, ih, mutateRefs_at addrs hnd, if_neg ha]

theorem foldl_mutate_at (addrs : List ℕ) (hnd : addrs.Nodup) (a : ℕ)
    (ha : a ∈ addrs) :
    ∀ (passes : List (Row → Row)) (hh : Heap),
      (passes.foldl (fun hh f => mutateRefs hh addrs f) hh) a
        = passes.foldl (fun r f => f r) (hh a) := by
  intro passes
  induction passes with
  | nil => intro hh; rfl
  | cons f fs ih =>
      intro hh
      rw [List.foldl_cons, ih, mutateRefs_at addrs hnd, if_pos ha, List.foldl_cons]

theorem allocCopies_frame (h : Heap) (refs : List ℕ) (fresh a : ℕ)
    (ha : a < fresh) : allocCopies h refs fresh a = h a := by
  unfold allocCopies
  rw [if_neg]
  intro ⟨h1, _⟩
  omega

theorem allocCopies_at (h : Heap) (refs : List ℕ) (fresh i : ℕ)
    (hi : i < refs.length) :
    allocCopies h refs fresh (fresh + i) = h (refs.getD i 0) := by
  unfold allocCopies
  rw [if_pos ⟨Nat.le_add_right fresh i, by omega⟩, Nat.add_sub_cancel_left]

theorem heapEncodeOp_frame (h : Heap) (refs : List ℕ) (fresh : ℕ)
    (passes : List (Row → Row)) (a : ℕ) (ha : a < fresh) :
    heapEncodeOp h refs fresh passes a = h a := by
  unfold heapEncodeOp
  have hmem : a ∉ copyAddrs refs fresh := by
    intro hmem
    rcases (mem_copyAddrs refs fresh a).mp hmem with ⟨i, _, hia⟩
    omega
  rw [foldl_mutate_frame _ (copyAddrs_nodup refs fresh) a hmem,
    allocCopies_frame h refs fresh a ha]

theorem heapEncodeOp_at (h : Heap) (refs : List ℕ) (fresh : ℕ)
    (passes : List (Row → Row)) (i : ℕ) (hi : i < refs.length) :
    heapEncodeOp h refs fresh passes (fresh + i)
      = passes.foldl (fun r f => f r) (h (refs.getD i 0)) := by
  unfold heapEncodeOp
  have hmem : fresh + i ∈ copyAddrs refs fresh :=
    (mem_copyAddrs refs fresh _).mpr ⟨i, hi, rfl⟩
  rw [foldl_mutate_at _ (copyAddrs_nodup refs fresh) _ hmem,
    allocCopies_at h refs fresh i hi]

theorem getD_map_ref (h : ℕ → Row) (refs : List ℕ) (i : ℕ)
    (hi : i < refs.length) :
    (refs.map h).getD i emptyRow = h (refs.getD i 0) := by
  rw [List.getD_eq_getElem?_getD, List.getElem?_map, List.getElem?_eq_getElem hi]
  rw [List.getD_eq_getElem?_getD, List.getElem?_eq_getElem hi]
  rfl

theorem foldl_flatten_pairs (numStr : ℝ → String) (data : List Row) :
    ∀ (cols : List String) (r : Row),
      ((cols.map (fun c => [ohInitApply numStr data c,
          ohSetApply numStr data c])).flatten).foldl (fun r f => f r) r
        = cols.foldl (fun r c => ohSetApply numStr data c
            (ohInitApply numStr data c r)) r := by
  intro cols
  induction cols with
  | nil => intro r; rfl
  | cons c t ih =>
      intro r
      rw [List.map_cons, List.flatten_cons, List.foldl_append, List.foldl_cons]
      rw [List.foldl_cons, List.foldl_nil, ih]
      rw [List.foldl_cons]

/-- C10: every encoding/normalization operation copies the caller's
rows to fresh heap addresses and mutates only the copies: at every
address of the caller's dataset the final heap equals the original heap
(the original rows keep all their values, including columns dropped or
excluded in the returned copy), while the copy addresses hold exactly
the rows computed by the corresponding pure operation. -/
theorem encoding_ops_copy_not_mutate (numStr : ℝ → String)
    (parseNum : String → Option ℝ) (h : Heap) (refs : List ℕ) (fresh : ℕ)
    (cols : List String) (maxCard : ℕ) (hlt : ∀ a ∈ refs, a < fresh) :
    (∀ a ∈ refs,
      heapLabelEncoding numStr h refs fresh cols a = h a
      ∧ heapOneHotEncoding numStr h refs fresh cols a = h a
      ∧ heapSmartOneHotEncoding numStr h refs fresh cols maxCard a = h a
      ∧ heapMinMaxNormalization parseNum h refs fresh cols a = h a
      ∧ heapZScoreNormalization parseNum h refs fresh cols a = h a)
    ∧ ∀ i, i < refs.length →
        heapLabelEncoding numStr h refs fresh cols (fresh + i)
          = (labelEncoding numStr (refs.map h) cols).1.getD i emptyRow
        ∧ heapOneHotEncoding numStr h refs fresh cols (fresh + i)
          = (oneHotEncoding numStr (refs.map h) cols).1.getD i emptyRow
        ∧ heapSmartOneHotEncoding numStr h refs fresh cols maxCard (fresh + i)
          = (smartOneHotEncoding numStr (refs.map h) cols maxCard).encodedData.getD
              i emptyRow
        ∧ heapMinMaxNormalization parseNum h refs fresh cols (fresh + i)
          = (minMaxNormalization parseNum (refs.map h) cols).1.getD i emptyRow
        ∧ heapZScoreNormalization parseNum h refs fresh cols (fresh + i)
          = (zScoreNormalization parseNum (refs.map h) cols).1.getD i emptyRow := by
  constructor
  · intro a ha
    have hfr := hlt a ha
    refine ⟨heapEncodeOp_frame _ _ _ _ a hfr, heapEncodeOp_frame _ _ _ _ a hfr,
      ?_, heapEncodeOp_frame _ _ _ _ a hfr, heapEncodeOp_frame _ _ _ _ a hfr⟩
    unfold heapSmartOneHotEncoding
    by_cases hc : (filterColumnsForClustering numStr (refs.map h) cols maxCard).1 = []
    · rw [if_pos hc]
      exact heapEncodeOp_frame _ _ _ _ a hfr
    · rw [if_neg hc]
      exact heapEncodeOp_frame _ _ _ _ a hfr
  · intro i hi
    have hlen : i < (refs.map h).length := by
      rw [List.length_map]
      exact hi
    have hid : (refs.map h).map (fun row : Row => row) = refs.map h := by simp
    refine ⟨?_, ?_, ?_, ?_, ?_⟩
    · show heapEncodeOp h refs fresh
        (cols.map (fun c => labelApply numStr (refs.map h) c)) (fresh + i) = _
      rw [heapEncodeOp_at _ _ _ _ i hi, List.foldl_map]
      have hrows : (labelEncoding numStr (refs.map h) cols).1
          = (refs.map h).map (fun r => cols.foldl
              (fun r c => labelApply numStr (refs.map h) c r) r) := by
        unfold labelEncoding
        rw [labelEncoding_rows_eq, hid]
      rw [hrows, getD_map_row _ _ i hlen, getD_map_ref h refs i hi]
    · show heapEncodeOp h refs fresh
        ((cols.map (fun c => [ohInitApply numStr (refs.map h) c,
          ohSetApply numStr (refs.map h) c])).flatten) (fresh + i) = _
      rw [heapEncodeOp_at _ _ _ _ i hi, foldl_flatten_pairs]
      have hrows : (oneHotEncoding numStr (refs.map h) cols).1
          = (refs.map h).map (fun r => cols.foldl
              (fun r c => ohSetApply numStr (refs.map h) c
                (ohInitApply numStr (refs.map h) c r)) r) := by
        unfold oneHotEncoding
        rw [oneHot_rows_eq, hid]
      rw [hrows, getD_map_row _ _ i hlen, getD_map_ref h refs i hi]
    · unfold heapSmartOneHotEncoding smartOneHotEncoding
      by_cases hc : (filterColumnsForClustering numStr (refs.map h) cols maxCard).1 = []
      · rw [if_pos hc, if_pos hc]
        rw [heapEncodeOp_at _ _ _ _ i hi]
        dsimp only
        rw [getD_map_row _ _ i hlen, getD_map_ref h refs i hi]
        rfl
      · rw [if_neg hc, if_neg hc]
        rw [heapEncodeOp_at _ _ _ _ i hi, List.foldl_append, foldl_flatten_pairs,
          List.foldl_cons, List.foldl_nil]
        dsimp only
        have hrows : (oneHotEncoding numStr (refs.map h)
            (filterColumnsForClustering numStr (refs.map h) cols maxCard).1).1
            = (refs.map h).map (fun r =>
                (filterColumnsForClustering numStr (refs.map h) cols maxCard).1.foldl
                  (fun r c => ohSetApply numStr (refs.map h) c
                    (ohInitApply numStr (refs.map h) c r)) r) := by
          unfold oneHotEncoding
          rw [oneHot_rows_eq, hid]
        rw [hrows, List.map_map, getD_map_row _ _ i hlen, getD_map_ref h refs i hi]
        rfl
    · show heapEncodeOp h refs fresh
        (cols.map (fun c => mmApply parseNum (refs.map h) c)) (fresh + i) = _
      rw [heapEncodeOp_at _ _ _ _ i hi, List.foldl_map]
      have hrows : (minMaxNormalization parseNum (refs.map h) cols).1
          = (refs.map h).map (fun r => cols.foldl
              (fun r c => mmApply parseNum (refs.map h) c r) r) := by
        unfold minMaxNormalization
        rw [minMax_rows_eq, hid]
      rw [hrows, getD_map_row _ _ i hlen, getD_map_ref h refs i hi]
    · show heapEncodeOp h refs fresh
        (cols.map (fun c => zApply parseNum (refs.map h) c)) (fresh + i) = _
      rw [heapEncodeOp_at _ _ _ _ i hi, List.foldl_map]
      have hrows : (zScoreNormalization parseNum (refs.map h) cols).1
          = (refs.map h).map (fun r => cols.foldl
              (fun r c => zApply parseNum (refs.map h) c r) r) := by
        unfold zScoreNormalization
        rw [zScore_rows_eq, hid]
      rw [hrows, getD_map_row _ _ i hlen, getD_map_ref h refs i hi]

theorem encoding_ops_copy_witness :
    (∀ a ∈ ([0] : List ℕ), a < 1)
    ∧ heapLabelEncoding (fun _ => "") h0 [0] 1 [] 0 = h0 0
    ∧ heapSmartOneHotEncoding (fun _ => "") h0 [0] 1 [] 10 0 = h0 0 := by
  have hth := encoding_ops_copy_not_mutate (fun _ => "") parse0 h0 [0] 1 [] 10 (by decide)
  exact ⟨by decide, (hth.1 0 (List.mem_cons_self 0 [])).1,
    (hth.1 0 (List.mem_cons_self 0 [])).2.2.1⟩

end ClusterMind
